import Mathlib

/-!
Verification development for the streaming tag-extraction engine of this
repository.  The two source classes are embedded shallowly:

* `StreamTextParser` models `backend/stream_text_parser.py` — the generic
  incremental parser with a character filter, a leading bare-tag detector
  and a bracket-tag scanner.
* `EmotionTagParser` models `backend/emotion_parser.py` — the minimal
  emotion-only tag tracker.

Strings are embedded as `List Char`.  Python's `str.find`, `str.rfind`,
`str.strip` and the two regular expressions of the source are embedded as
executable list functions.  Loops with a moving cursor are embedded as
recursions over the still-unconsumed suffix; the scan loop consumes at
least one bracket per iteration, so a fuel argument equal to the buffer
length makes the recursion structural (fuel sufficiency is proved below).
-/

set_option autoImplicit false

/-- Whitespace test used by the source via Python's `str.isspace` and the
regex class `\s`, restricted to the ASCII range (the character filter of
the engine removes all non-ASCII characters; no claim depends on exotic
Unicode whitespace). -/
def pyIsSpace (c : Char) : Bool :=
  c = ' ' || c = '\t' || c = '\n' || c = '\r' || c = '\x0b' || c = '\x0c'

/-- Characters accepted after a bare leading tag by the lookahead
`(?=[\s\.,!?:;]|$)` of `_leading_tag_re`. -/
def lookaheadOk (c : Char) : Bool :=
  pyIsSpace c || c = '.' || c = ',' || c = '!' || c = '?' || c = ':' || c = ';'

/-- Membership in the character class kept by `_NON_ASCII_PATTERN`
(`[^\x09\x0A\x0D\x20-\x7E]` is removed): horizontal tab, line feed,
carriage return, printable ASCII. -/
def isProseChar (c : Char) : Bool :=
  c = '\x09' || c = '\x0a' || c = '\x0d' || ('\x20' ≤ c && c ≤ '\x7e')

/-- Python `str.strip()`: remove leading and trailing whitespace. -/
def pyStrip (l : List Char) : List Char :=
  ((l.dropWhile pyIsSpace).reverse.dropWhile pyIsSpace).reverse

/-- Embeds `str.find`: split a list at the first occurrence of `c`,
returning the part before it and the part after it, or `none` when `c`
does not occur. -/
def splitFirst (c : Char) : List Char → Option (List Char × List Char)
  | [] => none
  | x :: xs =>
    if x = c then some ([], xs)
    else
      match splitFirst c xs with
      | none => none
      | some (p, s) => some (x :: p, s)

/-- Embeds `str.rfind`: index of the last occurrence of `c`, if any. -/
def rfindIdx (c : Char) : List Char → Option Nat
  | [] => none
  | x :: xs =>
    match rfindIdx c xs with
    | some i => some (i + 1)
    | none => if x = c then some 0 else none

/-- Boundary handling shared verbatim by both source classes: given the
tail left after the scan loop, compute `(flushed text, new carry)` from
`last_open = tail.rfind('[')` and `last_close = tail.rfind(']')`. -/
def splitCarry (tail : List Char) : List Char × List Char :=
  match rfindIdx '[' tail, rfindIdx ']' tail with
  | some lo, some lc => if lc < lo then (tail.take lo, tail.drop lo) else (tail, [])
  | some lo, none => (tail.take lo, tail.drop lo)
  | none, _ => (tail, [])

/-- Embeds `StreamTextParser._filter_chars`: when stripping is enabled,
remove every character outside the prose class (the source removes
maximal runs via regex substitution, which equals per-character
filtering). -/
def filterChars (strip : Bool) (text : List Char) : List Char :=
  if strip then text.filter isProseChar else text

/-- Keep the longer of two candidate matches (the compiled alternation of
`_leading_tag_re` sorts tag names by length, longest first; two distinct
same-length candidates can never both match at position zero, so only the
length ordering is observable). -/
def pickLonger (acc : Option (List Char)) (t : List Char) : Option (List Char) :=
  match acc with
  | none => some t
  | some u => if u.length < t.length then some t else some u

/-- Does tag `t` match at the start of `buf`, including the lookahead
for whitespace, punctuation or end of buffer? -/
def tagMatchesAt (t : List Char) (buf : List Char) : Bool :=
  t.isPrefixOf buf &&
    (match buf.drop t.length with
     | [] => true
     | c :: _ => lookaheadOk c)

/-- Embeds a match of `_leading_tag_re` at the start of `buf`: the
longest allowed tag name that is a prefix of `buf` and is followed by
whitespace, punctuation or the end of the buffer. -/
def leadingTagMatch (allowed : List (List Char)) (buf : List Char) : Option (List Char) :=
  (allowed.filter (fun t => tagMatchesAt t buf)).foldl pickLonger none

/-- Scan loop of `StreamTextParser.process_chunk` on the unconsumed
suffix `rest`: repeatedly locate `[` then `]`; an allowed (or, with an
empty allowed set, any) bracketed span emits the text before it and
records the trimmed inner text as a tag; a disallowed span is dropped
together with the text before it.  Returns
(emitted text, tags in order, unconsumed tail).  The fuel argument only
bounds the number of iterations; `rest.length` is always sufficient. -/
def scanLoopAux (E : List (List Char)) : Nat → List Char → List Char × List (List Char) × List Char
  | 0, rest => ([], [], rest)
  | fuel + 1, rest =>
    match splitFirst '[' rest with
    | none => ([], [], rest)
    | some (pre, afterOpen) =>
      match splitFirst ']' afterOpen with
      | none => ([], [], rest)
      | some (innerRaw, afterClose) =>
        let inner := pyStrip innerRaw
        let r := scanLoopAux E fuel afterClose
        if E = [] ∨ inner ∈ E then
          (pre ++ r.1, inner :: r.2.1, r.2.2)
        else
          r

/-- Scan loop of `StreamTextParser.process_chunk` with sufficient fuel. -/
def scanLoop (E : List (List Char)) (rest : List Char) : List Char × List (List Char) × List Char :=
  scanLoopAux E rest.length rest

/-- State of a `StreamTextParser` instance: configuration fixed at
construction (`allowed_set`, `strip_non_english`) plus the mutable fields
`_carry`, `_last_tag`, `_has_output_text`, `_has_output_non_ws`. -/
structure StreamTextParser where
  allowedSet : List (List Char)
  stripNonEnglish : Bool
  carry : List Char
  lastTag : Option (List Char)
  hasOutputText : Bool
  hasOutputNonWs : Bool
deriving DecidableEq

/-- Embeds `StreamTextParser.__init__`. -/
def StreamTextParser.init (allowed : List (List Char)) (strip : Bool) : StreamTextParser :=
  ⟨allowed, strip, [], none, false, false⟩

/-- Leading bare-tag detector of `process_chunk`: active only while no
non-whitespace text has been emitted and the allowed set is non-empty
(`_leading_tag_re` is only compiled then).  Skips leading whitespace,
matches the longest allowed tag name with its lookahead, and on a match
also skips the whitespace right after the tag.  Returns the recognized
tag (if any) and the still-unconsumed suffix of `combined`. -/
def bareScan (s : StreamTextParser) (combined : List Char) : Option (List Char) × List Char :=
  if s.hasOutputNonWs = false ∧ s.allowedSet ≠ [] ∧ combined ≠ [] then
    let j := (combined.takeWhile pyIsSpace).length
    if j < combined.length then
      match leadingTagMatch s.allowedSet (combined.drop j) with
      | some tag => (some tag, (combined.drop (j + tag.length)).dropWhile pyIsSpace)
      | none => (none, combined)
    else (none, combined)
  else (none, combined)

/-- Embeds `StreamTextParser.process_chunk`.  Returns the new state
together with `(clean_text, tags_found)`.  (`out_parts` of the source is
modeled pre-joined; the returned string is the only observable.) -/
def StreamTextParser.processChunk (s : StreamTextParser) (chunk : List Char) :
    StreamTextParser × List Char × List (List Char) :=
  if chunk = [] then (s, [], [])
  else
    let combined := s.carry ++ filterChars s.stripNonEnglish chunk
    let bs := bareScan s combined
    let sc := scanLoop s.allowedSet bs.2
    let tc := splitCarry sc.2.2
    let textOut := sc.1 ++ tc.1
    let allTags := (match bs.1 with | some t => [t] | none => []) ++ sc.2.1
    let lastTag' := match allTags.getLast? with | some t => some t | none => s.lastTag
    (⟨s.allowedSet, s.stripNonEnglish, tc.2, lastTag',
      s.hasOutputText || !textOut.isEmpty,
      s.hasOutputNonWs || textOut.any (fun ch => !pyIsSpace ch)⟩,
     textOut, allTags)

/-- Embeds `StreamTextParser.finish`: returns `(residual, last_tag)` and
the state with the carry cleared. -/
def StreamTextParser.finish (s : StreamTextParser) :
    (List Char × Option (List Char)) × StreamTextParser :=
  ((s.carry, s.lastTag),
   ⟨s.allowedSet, s.stripNonEnglish, [], s.lastTag, s.hasOutputText, s.hasOutputNonWs⟩)

/-- Observer for the bare-tag detector: did the detector fire during
`process_chunk s chunk`?  Defined from the same `bareScan` the embedding
of `process_chunk` invokes. -/
def processChunkFired (s : StreamTextParser) (chunk : List Char) : Bool :=
  if chunk = [] then false
  else ((bareScan s (s.carry ++ filterChars s.stripNonEnglish chunk)).1).isSome

/-- State of an `EmotionTagParser` instance. -/
structure EmotionTagParser where
  allowedSet : List (List Char)
  defaultEmotion : List Char
  carry : List Char
  lastEmotion : List Char
deriving DecidableEq

/-- Embeds `EmotionTagParser.__init__`. -/
def EmotionTagParser.init (allowed : List (List Char)) (d : List Char) : EmotionTagParser :=
  ⟨allowed, d, [], d⟩

/-- Scan loop of `EmotionTagParser.process_chunk`: an allowed span is
removed and recorded; a span whose trimmed inner text is not allowed is
kept as regular text up to and including the closing bracket. -/
def escanLoopAux (E : List (List Char)) : Nat → List Char → List Char × List (List Char) × List Char
  | 0, rest => ([], [], rest)
  | fuel + 1, rest =>
    match splitFirst '[' rest with
    | none => ([], [], rest)
    | some (pre, afterOpen) =>
      match splitFirst ']' afterOpen with
      | none => ([], [], rest)
      | some (innerRaw, afterClose) =>
        let inner := pyStrip innerRaw
        let r := escanLoopAux E fuel afterClose
        if inner ∈ E then
          (pre ++ r.1, inner :: r.2.1, r.2.2)
        else
          (pre ++ '[' :: (innerRaw ++ ']' :: r.1), r.2.1, r.2.2)

/-- Scan loop of `EmotionTagParser.process_chunk` with sufficient fuel. -/
def escanLoop (E : List (List Char)) (rest : List Char) : List Char × List (List Char) × List Char :=
  escanLoopAux E rest.length rest

/-- Embeds `EmotionTagParser.process_chunk`. -/
def EmotionTagParser.processChunk (s : EmotionTagParser) (chunk : List Char) :
    EmotionTagParser × List Char × List (List Char) :=
  if chunk = [] then (s, [], [])
  else
    let combined := s.carry ++ chunk
    let sc := escanLoop s.allowedSet combined
    let tc := splitCarry sc.2.2
    let lastE := match sc.2.1.getLast? with | some t => t | none => s.lastEmotion
    (⟨s.allowedSet, s.defaultEmotion, tc.2, lastE⟩, sc.1 ++ tc.1, sc.2.1)

/-- Embeds `EmotionTagParser.finish`. -/
def EmotionTagParser.finish (s : EmotionTagParser) : (List Char × List Char) × EmotionTagParser :=
  ((s.carry, s.lastEmotion), ⟨s.allowedSet, s.defaultEmotion, [], s.lastEmotion⟩)

/-- Feed a sequence of fragments to a `StreamTextParser`; returns the
final state and the per-call `(clean_text, tags_found)` results. -/
def runChunks (s : StreamTextParser) : List (List Char) → StreamTextParser × List (List Char × List (List Char))
  | [] => (s, [])
  | c :: cs =>
    let r := s.processChunk c
    let rest := runChunks r.1 cs
    (rest.1, (r.2.1, r.2.2) :: rest.2)

/-- Feed a sequence of fragments to an `EmotionTagParser`. -/
def erunChunks (s : EmotionTagParser) : List (List Char) → EmotionTagParser × List (List Char × List (List Char))
  | [] => (s, [])
  | c :: cs =>
    let r := s.processChunk c
    let rest := erunChunks r.1 cs
    (rest.1, (r.2.1, r.2.2) :: rest.2)

/-- Concatenation of the `clean_text` components of per-call results. -/
def cleanConcat (outs : List (List Char × List (List Char))) : List Char :=
  (outs.map Prod.fst).flatten

/-- Shape invariant of the carry buffer: empty, or an unterminated
bracket — it starts with `[` and contains no `]`. -/
def carryInv (l : List Char) : Prop :=
  l = [] ∨ (l.head? = some '[' ∧ ']' ∉ l)

/-- A list is span-free when it contains no complete bracketed span,
i.e. no `]` occurs anywhere after a `[`. -/
def spanFree (l : List Char) : Bool :=
  !(((l.dropWhile (fun c => c ≠ '[')).drop 1).contains ']')

/-- Does `pat` occur as a contiguous segment of the list? -/
def containsSeg (pat : List Char) : List Char → Bool
  | [] => decide (pat = [])
  | c :: cs => decide ((c :: cs).take pat.length = pat) || containsSeg pat cs

/-- Scans a string, tracking whether the scanner is inside a bracket-open
region; fails on a second `[` before any `]` closed the first. -/
def noDoubleOpenGo : Bool → List Char → Bool
  | _, [] => true
  | b, c :: cs =>
    if c = '[' then (if b then false else noDoubleOpenGo true cs)
    else if c = ']' then noDoubleOpenGo false cs
    else noDoubleOpenGo b cs

/-- No `[` occurs while an earlier `[` is still unclosed. -/
def noDoubleOpen (l : List Char) : Bool :=
  noDoubleOpenGo false l

/-- Every complete bracketed span of the buffer, in scan order, has a
trimmed inner text belonging to `E`. -/
def allSpansAllowedAux (E : List (List Char)) : Nat → List Char → Bool
  | 0, _ => true
  | fuel + 1, rest =>
    match splitFirst '[' rest with
    | none => true
    | some (_, afterOpen) =>
      match splitFirst ']' afterOpen with
      | none => true
      | some (innerRaw, afterClose) =>
        decide (pyStrip innerRaw ∈ E) && allSpansAllowedAux E fuel afterClose

/-- Every complete bracketed span of the buffer has an allowed inner
text (with sufficient fuel). -/
def allSpansAllowed (E : List (List Char)) (rest : List Char) : Bool :=
  allSpansAllowedAux E rest.length rest

/-- The bare-tag detector cannot match on this working buffer: either the
buffer is all whitespace, or no allowed tag name matches after the
leading whitespace. -/
def noBareHit (E : List (List Char)) (combined : List Char) : Bool :=
  let j := (combined.takeWhile pyIsSpace).length
  decide (combined.length ≤ j) || (leadingTagMatch E (combined.drop j)).isNone

/-- One step of a run is comparison-safe for the subsumption statement:
on the working buffer of this call the bare-tag detector does not match
and every complete span is allowed. -/
def gstepOk (s : StreamTextParser) (chunk : List Char) : Bool :=
  let combined := s.carry ++ filterChars s.stripNonEnglish chunk
  noBareHit s.allowedSet combined && allSpansAllowed s.allowedSet combined

/-- Every step of the run is comparison-safe. -/
def goodRun : StreamTextParser → List (List Char) → Bool
  | _, [] => true
  | s, c :: cs => gstepOk s c && goodRun (s.processChunk c).1 cs

/-- Core of a permissive-mode `process_chunk` on a whole working buffer:
scan with the empty allowed set, then boundary handling; returns
`(clean text, new carry)`. -/
def pcore (buf : List Char) : List Char × List Char :=
  let r := scanLoop [] buf
  let tc := splitCarry r.2.2
  (r.1 ++ tc.1, tc.2)

/-- The state reached from `s` by clearing the carry buffer (the whole
state effect of `finish`). -/
def clearCarry (s : StreamTextParser) : StreamTextParser :=
  ⟨s.allowedSet, s.stripNonEnglish, [], s.lastTag, s.hasOutputText, s.hasOutputNonWs⟩

/-! ### Basic facts about the string-search helpers -/

theorem splitFirst_some {c : Char} {l p s : List Char}
    (h : splitFirst c l = some (p, s)) : l = p ++ c :: s ∧ c ∉ p := by
  induction l generalizing p s with
  | nil => simp [splitFirst] at h
  | cons x xs ih =>
    by_cases hx : x = c
    · subst hx
      simp [splitFirst] at h
      obtain ⟨hp, hs⟩ := h
      subst hp; subst hs
      simp
    · rw [splitFirst, if_neg hx] at h
      cases hsf : splitFirst c xs with
      | none => rw [hsf] at h; exact absurd h (by simp)
      | some ps =>
        obtain ⟨p0, s0⟩ := ps
        rw [hsf] at h
        simp at h
        obtain ⟨hp, hs⟩ := h
        obtain ⟨h1, h2⟩ := ih hsf
        subst hp; subst hs; subst h1
        refine ⟨rfl, ?_⟩
        simp [h2]
        exact fun hcx => hx hcx.symm

theorem splitFirst_none {c : Char} {l : List Char}
    (h : splitFirst c l = none) : c ∉ l := by
  induction l with
  | nil => simp
  | cons x xs ih =>
    by_cases hx : x = c
    · subst hx; simp [splitFirst] at h
    · rw [splitFirst, if_neg hx] at h
      cases hsf : splitFirst c xs with
      | none => simpa [hx, Ne.symm] using fun hc => (ih hsf) hc
      | some ps => rw [hsf] at h; exact absurd h (by simp)

theorem splitFirst_of_decomp {c : Char} {p s : List Char} (hp : c ∉ p) :
    splitFirst c (p ++ c :: s) = some (p, s) := by
  induction p with
  | nil => simp [splitFirst]
  | cons x xs ih =>
    simp at hp
    obtain ⟨hx, hxs⟩ := hp
    have hx2 : ¬x = c := fun h => hx h.symm
    rw [List.cons_append, splitFirst, if_neg hx2, ih hxs]

theorem splitFirst_append_no {c : Char} {a : List Char} (b : List Char) (ha : c ∉ a) :
    splitFirst c (a ++ b) =
      match splitFirst c b with
      | none => none
      | some (p, s) => some (a ++ p, s) := by
  cases hb : splitFirst c b with
  | none =>
    have hcb := splitFirst_none hb
    cases hab : splitFirst c (a ++ b) with
    | none => rfl
    | some ps =>
      obtain ⟨p0, s0⟩ := ps
      have := (splitFirst_some hab).1
      have : c ∈ a ++ b := by rw [this]; simp
      rcases List.mem_append.1 this with h | h
      · exact absurd h ha
      · exact absurd h hcb
  | some ps =>
    obtain ⟨p0, s0⟩ := ps
    obtain ⟨hb1, hb2⟩ := splitFirst_some hb
    subst hb1
    have : a ++ (p0 ++ c :: s0) = (a ++ p0) ++ c :: s0 := by simp
    rw [this, splitFirst_of_decomp (by simp [ha, hb2])]

theorem rfindIdx_append {c : Char} (a b : List Char) :
    rfindIdx c (a ++ b) =
      match rfindIdx c b with
      | some i => some (a.length + i)
      | none => rfindIdx c a := by
  induction a with
  | nil => cases hb : rfindIdx c b <;> simp [hb, rfindIdx]
  | cons x xs ih =>
    rw [List.cons_append, rfindIdx, ih]
    cases hb : rfindIdx c b with
    | some i => simp [rfindIdx, Nat.add_assoc, Nat.add_comm 1 i]
    | none => simp [rfindIdx]

theorem rfindIdx_none_iff {c : Char} {l : List Char} :
    rfindIdx c l = none ↔ c ∉ l := by
  induction l with
  | nil => simp [rfindIdx]
  | cons x xs ih =>
    rw [rfindIdx]
    cases hx : rfindIdx c xs with
    | some i => simp [ih.symm, hx]
    | none =>
      have := ih.1 hx
      by_cases hxc : x = c
      · simp [hxc]
      · simp [hxc, this, Ne.symm hxc]

theorem rfindIdx_cons_self {c : Char} {b : List Char} (hb : c ∉ b) :
    rfindIdx c (c :: b) = some 0 := by
  rw [rfindIdx, rfindIdx_none_iff.2 hb]
  simp

theorem rfindIdx_lt_length {c : Char} {l : List Char} {i : Nat}
    (h : rfindIdx c l = some i) : i < l.length := by
  induction l generalizing i with
  | nil => simp [rfindIdx] at h
  | cons x xs ih =>
    rw [rfindIdx] at h
    cases hx : rfindIdx c xs with
    | some j =>
      rw [hx] at h
      simp at h
      subst h
      simpa using Nat.succ_lt_succ (ih hx)
    | none =>
      rw [hx] at h
      by_cases hxc : x = c
      · simp [hxc] at h
        simp [← h]
      · simp [hxc] at h

theorem splitCarry_no_open {tail : List Char} (h : '[' ∉ tail) :
    splitCarry tail = (tail, []) := by
  rw [splitCarry, rfindIdx_none_iff.2 h]

theorem splitCarry_open {a b : List Char} (hb : '[' ∉ b) (hb2 : ']' ∉ b) :
    splitCarry (a ++ '[' :: b) = (a, '[' :: b) := by
  have hlo : rfindIdx '[' (a ++ '[' :: b) = some a.length := by
    rw [rfindIdx_append, rfindIdx_cons_self hb]
    simp
  have hnc : (']' : Char) ∉ '[' :: b := by simp [hb2]
  have hlc : rfindIdx ']' (a ++ '[' :: b) = rfindIdx ']' a := by
    rw [rfindIdx_append, rfindIdx_none_iff.2 hnc]
  have htake : (a ++ '[' :: b).take a.length = a := List.take_left a _
  have hdrop : (a ++ '[' :: b).drop a.length = '[' :: b := List.drop_left a _
  rw [splitCarry, hlo, hlc]
  cases hca : rfindIdx ']' a with
  | none => simp [htake, hdrop]
  | some j =>
    have := rfindIdx_lt_length hca
    simp [this, htake, hdrop]

theorem exists_last_mem {c : Char} {l : List Char} (h : c ∈ l) :
    ∃ a b, l = a ++ c :: b ∧ c ∉ b := by
  induction l with
  | nil => simp at h
  | cons x xs ih =>
    by_cases hxs : c ∈ xs
    · obtain ⟨a, b, hab, hb⟩ := ih hxs
      exact ⟨x :: a, b, by rw [hab]; rfl, hb⟩
    · have hx : x = c := by
        rcases List.mem_cons.1 h with h | h
        · exact h.symm
        · exact absurd h hxs
      exact ⟨[], xs, by simp [hx], hxs⟩

/-! ### Fuel sufficiency and unfolding for the scan loops -/

theorem splitFirst_lengths {c : Char} {l p s : List Char}
    (h : splitFirst c l = some (p, s)) : p.length + s.length + 1 = l.length := by
  obtain ⟨h1, _⟩ := splitFirst_some h
  subst h1
  simp
  omega

theorem scanLoopAux_mono (E : List (List Char)) :
    ∀ (f g : Nat) (rest : List Char), rest.length ≤ f → rest.length ≤ g →
      scanLoopAux E f rest = scanLoopAux E g rest := by
  intro f
  induction f with
  | zero =>
    intro g rest hf _
    have hr : rest = [] := List.length_eq_zero.1 (Nat.le_zero.1 hf)
    subst hr
    cases g with
    | zero => rfl
    | succ g => simp [scanLoopAux, splitFirst]
  | succ f ih =>
    intro g rest hf hg
    cases g with
    | zero =>
      have hr : rest = [] := List.length_eq_zero.1 (Nat.le_zero.1 hg)
      subst hr
      simp [scanLoopAux, splitFirst]
    | succ g =>
      cases h1 : splitFirst '[' rest with
      | none => simp [scanLoopAux, h1]
      | some po =>
        obtain ⟨pre, afterOpen⟩ := po
        cases h2 : splitFirst ']' afterOpen with
        | none => simp [scanLoopAux, h1, h2]
        | some ia =>
          obtain ⟨innerRaw, afterClose⟩ := ia
          have l1 := splitFirst_lengths h1
          have l2 := splitFirst_lengths h2
          have hac_f : afterClose.length ≤ f := by omega
          have hac_g : afterClose.length ≤ g := by omega
          simp only [scanLoopAux, h1, h2]
          rw [ih g afterClose hac_f hac_g]

theorem scanLoop_nil (E : List (List Char)) : scanLoop E [] = ([], [], []) := rfl

theorem scanLoop_no_open {rest : List Char} (E : List (List Char))
    (h : splitFirst '[' rest = none) : scanLoop E rest = ([], [], rest) := by
  cases rest with
  | nil => rfl
  | cons x xs => simp [scanLoop, scanLoopAux, h]

theorem scanLoop_no_close {rest pre afterOpen : List Char} (E : List (List Char))
    (h1 : splitFirst '[' rest = some (pre, afterOpen))
    (h2 : splitFirst ']' afterOpen = none) : scanLoop E rest = ([], [], rest) := by
  cases rest with
  | nil => simp [splitFirst] at h1
  | cons x xs => simp [scanLoop, scanLoopAux, h1, h2]

theorem scanLoop_span {rest pre afterOpen innerRaw afterClose : List Char} (E : List (List Char))
    (h1 : splitFirst '[' rest = some (pre, afterOpen))
    (h2 : splitFirst ']' afterOpen = some (innerRaw, afterClose)) :
    scanLoop E rest =
      if E = [] ∨ pyStrip innerRaw ∈ E then
        (pre ++ (scanLoop E afterClose).1,
         pyStrip innerRaw :: (scanLoop E afterClose).2.1,
         (scanLoop E afterClose).2.2)
      else scanLoop E afterClose := by
  cases rest with
  | nil => simp [splitFirst] at h1
  | cons x xs =>
    have l1 := splitFirst_lengths h1
    have l2 := splitFirst_lengths h2
    simp only [List.length_cons] at l1
    have hac : afterClose.length ≤ xs.length := by omega
    simp only [scanLoop, List.length_cons, scanLoopAux, h1, h2]
    rw [scanLoopAux_mono E xs.length afterClose.length afterClose hac (Nat.le_refl _)]

theorem escanLoopAux_mono (E : List (List Char)) :
    ∀ (f g : Nat) (rest : List Char), rest.length ≤ f → rest.length ≤ g →
      escanLoopAux E f rest = escanLoopAux E g rest := by
  intro f
  induction f with
  | zero =>
    intro g rest hf _
    have hr : rest = [] := List.length_eq_zero.1 (Nat.le_zero.1 hf)
    subst hr
    cases g with
    | zero => rfl
    | succ g => simp [escanLoopAux, splitFirst]
  | succ f ih =>
    intro g rest hf hg
    cases g with
    | zero =>
      have hr : rest = [] := List.length_eq_zero.1 (Nat.le_zero.1 hg)
      subst hr
      simp [escanLoopAux, splitFirst]
    | succ g =>
      cases h1 : splitFirst '[' rest with
      | none => simp [escanLoopAux, h1]
      | some po =>
        obtain ⟨pre, afterOpen⟩ := po
        cases h2 : splitFirst ']' afterOpen with
        | none => simp [escanLoopAux, h1, h2]
        | some ia =>
          obtain ⟨innerRaw, afterClose⟩ := ia
          have l1 := splitFirst_lengths h1
          have l2 := splitFirst_lengths h2
          have hac_f : afterClose.length ≤ f := by omega
          have hac_g : afterClose.length ≤ g := by omega
          simp only [escanLoopAux, h1, h2]
          rw [ih g afterClose hac_f hac_g]

theorem escanLoop_no_open {rest : List Char} (E : List (List Char))
    (h : splitFirst '[' rest = none) : escanLoop E rest = ([], [], rest) := by
  cases rest with
  | nil => rfl
  | cons x xs => simp [escanLoop, escanLoopAux, h]

theorem escanLoop_no_close {rest pre afterOpen : List Char} (E : List (List Char))
    (h1 : splitFirst '[' rest = some (pre, afterOpen))
    (h2 : splitFirst ']' afterOpen = none) : escanLoop E rest = ([], [], rest) := by
  cases rest with
  | nil => simp [splitFirst] at h1
  | cons x xs => simp [escanLoop, escanLoopAux, h1, h2]

theorem escanLoop_span {rest pre afterOpen innerRaw afterClose : List Char} (E : List (List Char))
    (h1 : splitFirst '[' rest = some (pre, afterOpen))
    (h2 : splitFirst ']' afterOpen = some (innerRaw, afterClose)) :
    escanLoop E rest =
      if pyStrip innerRaw ∈ E then
        (pre ++ (escanLoop E afterClose).1,
         pyStrip innerRaw :: (escanLoop E afterClose).2.1,
         (escanLoop E afterClose).2.2)
      else
        (pre ++ '[' :: (innerRaw ++ ']' :: (escanLoop E afterClose).1),
         (escanLoop E afterClose).2.1,
         (escanLoop E afterClose).2.2) := by
  cases rest with
  | nil => simp [splitFirst] at h1
  | cons x xs =>
    have l1 := splitFirst_lengths h1
    have l2 := splitFirst_lengths h2
    simp only [List.length_cons] at l1
    have hac : afterClose.length ≤ xs.length := by omega
    simp only [escanLoop, List.length_cons, escanLoopAux, h1, h2]
    rw [escanLoopAux_mono E xs.length afterClose.length afterClose hac (Nat.le_refl _)]

theorem allSpansAllowedAux_mono (E : List (List Char)) :
    ∀ (f g : Nat) (rest : List Char), rest.length ≤ f → rest.length ≤ g →
      allSpansAllowedAux E f rest = allSpansAllowedAux E g rest := by
  intro f
  induction f with
  | zero =>
    intro g rest hf _
    have hr : rest = [] := List.length_eq_zero.1 (Nat.le_zero.1 hf)
    subst hr
    cases g with
    | zero => rfl
    | succ g => simp [allSpansAllowedAux, splitFirst]
  | succ f ih =>
    intro g rest hf hg
    cases g with
    | zero =>
      have hr : rest = [] := List.length_eq_zero.1 (Nat.le_zero.1 hg)
      subst hr
      simp [allSpansAllowedAux, splitFirst]
    | succ g =>
      cases h1 : splitFirst '[' rest with
      | none => simp [allSpansAllowedAux, h1]
      | some po =>
        obtain ⟨pre, afterOpen⟩ := po
        cases h2 : splitFirst ']' afterOpen with
        | none => simp [allSpansAllowedAux, h1, h2]
        | some ia =>
          obtain ⟨innerRaw, afterClose⟩ := ia
          have l1 := splitFirst_lengths h1
          have l2 := splitFirst_lengths h2
          have hac_f : afterClose.length ≤ f := by omega
          have hac_g : afterClose.length ≤ g := by omega
          simp only [allSpansAllowedAux, h1, h2]
          rw [ih g afterClose hac_f hac_g]

theorem allSpansAllowed_no_open {rest : List Char} (E : List (List Char))
    (h : splitFirst '[' rest = none) : allSpansAllowed E rest = true := by
  cases rest with
  | nil => rfl
  | cons x xs => simp [allSpansAllowed, allSpansAllowedAux, h]

theorem allSpansAllowed_no_close {rest pre afterOpen : List Char} (E : List (List Char))
    (h1 : splitFirst '[' rest = some (pre, afterOpen))
    (h2 : splitFirst ']' afterOpen = none) : allSpansAllowed E rest = true := by
  cases rest with
  | nil => simp [splitFirst] at h1
  | cons x xs => simp [allSpansAllowed, allSpansAllowedAux, h1, h2]

theorem allSpansAllowed_span {rest pre afterOpen innerRaw afterClose : List Char} (E : List (List Char))
    (h1 : splitFirst '[' rest = some (pre, afterOpen))
    (h2 : splitFirst ']' afterOpen = some (innerRaw, afterClose)) :
    allSpansAllowed E rest =
      (decide (pyStrip innerRaw ∈ E) && allSpansAllowed E afterClose) := by
  cases rest with
  | nil => simp [splitFirst] at h1
  | cons x xs =>
    have l1 := splitFirst_lengths h1
    have l2 := splitFirst_lengths h2
    simp only [List.length_cons] at l1
    have hac : afterClose.length ≤ xs.length := by omega
    simp only [allSpansAllowed, List.length_cons, allSpansAllowedAux, h1, h2]
    rw [allSpansAllowedAux_mono E xs.length afterClose.length afterClose hac (Nat.le_refl _)]

/-! ### Facts about boundary handling and the per-call step -/

theorem rfindIdx_some_decomp {c : Char} {l : List Char} {i : Nat}
    (h : rfindIdx c l = some i) : ∃ a b, l = a ++ c :: b ∧ c ∉ b ∧ i = a.length := by
  induction l generalizing i with
  | nil => simp [rfindIdx] at h
  | cons x xs ih =>
    rw [rfindIdx] at h
    cases hx : rfindIdx c xs with
    | some j =>
      rw [hx] at h
      simp at h
      obtain ⟨a, b, hab, hb, hj⟩ := ih hx
      refine ⟨x :: a, b, by rw [hab]; rfl, hb, ?_⟩
      simp [← h, hj]
    | none =>
      rw [hx] at h
      by_cases hxc : x = c
      · simp [hxc] at h
        subst hxc
        exact ⟨[], xs, rfl, rfindIdx_none_iff.1 hx, by simp [← h]⟩
      · simp [hxc] at h

theorem rfindIdx_isSome_of_mem {c : Char} {l : List Char} (h : c ∈ l) :
    ∃ k, rfindIdx c l = some k := by
  cases hr : rfindIdx c l with
  | none => exact absurd h (rfindIdx_none_iff.1 hr)
  | some k => exact ⟨k, rfl⟩

theorem splitCarry_carryInv (tail : List Char) : carryInv (splitCarry tail).2 := by
  rw [splitCarry]
  cases hlo : rfindIdx '[' tail with
  | none => simp [carryInv]
  | some lo =>
    obtain ⟨a, b, hab, hb, hloe⟩ := rfindIdx_some_decomp hlo
    cases hlc : rfindIdx ']' tail with
    | none =>
      have hnc : (']' : Char) ∉ tail := rfindIdx_none_iff.1 hlc
      subst hab
      subst hloe
      have hdrop : (a ++ '[' :: b).drop a.length = '[' :: b := List.drop_left a _
      simp only [hdrop, carryInv]
      right
      refine ⟨rfl, fun hmem => hnc ?_⟩
      simp at hmem ⊢
      tauto
    | some lc =>
      by_cases hcmp : lc < lo
      · subst hab
        subst hloe
        have hdrop : (a ++ '[' :: b).drop a.length = '[' :: b := List.drop_left a _
        simp only [if_pos hcmp, hdrop, carryInv]
        right
        refine ⟨rfl, ?_⟩
        intro hmem
        have hbmem : (']' : Char) ∈ b := by
          rcases List.mem_cons.1 hmem with h | h
          · exact absurd h (by decide)
          · exact h
        obtain ⟨k, hk⟩ := rfindIdx_isSome_of_mem hbmem
        have : rfindIdx ']' (a ++ '[' :: b) = some (a.length + (k + 1)) := by
          rw [rfindIdx_append]
          rw [rfindIdx, hk]
        rw [this] at hlc
        simp at hlc
        omega
      · simp [if_neg hcmp, carryInv]

theorem length_dropWhile_le (p : Char → Bool) (l : List Char) :
    (l.dropWhile p).length ≤ l.length := by
  induction l with
  | nil => simp
  | cons x xs ih =>
    rw [List.dropWhile_cons]
    by_cases hx : p x = true
    · simp [hx]; omega
    · simp [hx]

theorem bareScan_len (s : StreamTextParser) (combined : List Char) :
    (bareScan s combined).2.length ≤ combined.length := by
  rw [bareScan]
  by_cases hcond : s.hasOutputNonWs = false ∧ s.allowedSet ≠ [] ∧ combined ≠ []
  · rw [if_pos hcond]
    by_cases hj : (combined.takeWhile pyIsSpace).length < combined.length
    · rw [if_pos hj]
      cases hm : leadingTagMatch s.allowedSet (combined.drop (combined.takeWhile pyIsSpace).length) with
      | none => simp
      | some tag =>
        simp only
        calc ((combined.drop ((combined.takeWhile pyIsSpace).length + tag.length)).dropWhile pyIsSpace).length
            ≤ (combined.drop ((combined.takeWhile pyIsSpace).length + tag.length)).length :=
              length_dropWhile_le _ _
          _ ≤ combined.length := by rw [List.length_drop]; omega
    · rw [if_neg hj]
  · rw [if_neg hcond]

theorem scanLoop_tail_len (E : List (List Char)) :
    ∀ (n : Nat) (rest : List Char), rest.length ≤ n →
      (scanLoop E rest).2.2.length ≤ rest.length := by
  intro n
  induction n with
  | zero =>
    intro rest h
    have : rest = [] := List.length_eq_zero.1 (Nat.le_zero.1 h)
    subst this
    simp [scanLoop_nil]
  | succ n ih =>
    intro rest h
    cases h1 : splitFirst '[' rest with
    | none => rw [scanLoop_no_open E h1]
    | some po =>
      obtain ⟨pre, afterOpen⟩ := po
      cases h2 : splitFirst ']' afterOpen with
      | none => rw [scanLoop_no_close E h1 h2]
      | some ia =>
        obtain ⟨innerRaw, afterClose⟩ := ia
        have l1 := splitFirst_lengths h1
        have l2 := splitFirst_lengths h2
        have hle : afterClose.length ≤ n := by omega
        have hrec := ih afterClose hle
        rw [scanLoop_span E h1 h2]
        by_cases hc : E = [] ∨ pyStrip innerRaw ∈ E
        · rw [if_pos hc]; simp only; omega
        · rw [if_neg hc]; omega

theorem splitCarry_snd_len (tail : List Char) :
    (splitCarry tail).2.length ≤ tail.length := by
  rw [splitCarry]
  cases hlo : rfindIdx '[' tail with
  | none => simp
  | some lo =>
    cases hlc : rfindIdx ']' tail with
    | none => simp [List.length_drop]
    | some lc =>
      by_cases hcmp : lc < lo
      · simp [hcmp, List.length_drop]
      · simp [hcmp]

theorem processChunk_carryInv (s : StreamTextParser) (chunk : List Char)
    (h : carryInv s.carry) : carryInv (s.processChunk chunk).1.carry := by
  by_cases hc : chunk = []
  · simpa [StreamTextParser.processChunk, hc] using h
  · simp only [StreamTextParser.processChunk, if_neg hc]
    exact splitCarry_carryInv _

theorem runChunks_carryInv (s : StreamTextParser) (fs : List (List Char))
    (h : carryInv s.carry) : carryInv (runChunks s fs).1.carry := by
  induction fs generalizing s with
  | nil => exact h
  | cons f fs ih =>
    simp only [runChunks]
    exact ih _ (processChunk_carryInv s f h)

theorem processChunk_preserves_config (s : StreamTextParser) (chunk : List Char) :
    (s.processChunk chunk).1.allowedSet = s.allowedSet ∧
    (s.processChunk chunk).1.stripNonEnglish = s.stripNonEnglish := by
  by_cases hc : chunk = []
  · simp [StreamTextParser.processChunk, hc]
  · simp [StreamTextParser.processChunk, hc]

/-! ### Claim C7: carry shape invariant -/

/-- C7: after every `process` call, for every configuration and input
sequence from a fresh engine, the carry buffer is either empty or begins
with `[` and contains no `]` (an unterminated open bracket). -/
theorem c7_carry_shape (allowed : List (List Char)) (strip : Bool) (fs : List (List Char)) :
    carryInv (runChunks (StreamTextParser.init allowed strip) fs).1.carry :=
  runChunks_carryInv _ fs (Or.inl rfl)

/-! ### Claim C4: size of the carry -/

/-- C4 (amended): the carry grows by at most the chunk length per call —
but it is not bounded by the longest tag name plus 2; the counterexample
shows text following an unterminated `[` accumulating in the carry. -/
theorem c4_carry_growth_bound (s : StreamTextParser) (chunk : List Char) :
    (s.processChunk chunk).1.carry.length ≤ s.carry.length + chunk.length := by
  by_cases hc : chunk = []
  · simp [StreamTextParser.processChunk, hc]
  · simp only [StreamTextParser.processChunk, if_neg hc]
    have hcomb : (s.carry ++ filterChars s.stripNonEnglish chunk).length ≤
        s.carry.length + chunk.length := by
      rw [List.length_append]
      have : (filterChars s.stripNonEnglish chunk).length ≤ chunk.length := by
        rw [filterChars]
        by_cases hst : s.stripNonEnglish = true
        · simp [hst]; exact List.length_filter_le _ _
        · simp at hst; simp [hst]
      omega
    have h1 := bareScan_len s (s.carry ++ filterChars s.stripNonEnglish chunk)
    have h2 := scanLoop_tail_len s.allowedSet
      (bareScan s (s.carry ++ filterChars s.stripNonEnglish chunk)).2.length
      (bareScan s (s.carry ++ filterChars s.stripNonEnglish chunk)).2 (Nat.le_refl _)
    have h3 := splitCarry_snd_len
      (scanLoop s.allowedSet (bareScan s (s.carry ++ filterChars s.stripNonEnglish chunk)).2).2.2
    omega

/-- C4 counterexample: with `allowed_tags = {"Hi"}` (longest tag name 2,
claimed bound 2 + 2 = 4) the single chunk `"[aaaaaaaaaa"` leaves a carry
of length 11: the carry is not bounded by the longest tag name plus two. -/
theorem c4_counterexample :
    ((StreamTextParser.init [['H', 'i']] true).processChunk
        ('[' :: List.replicate 10 'a')).1.carry.length = 11 ∧ 2 + 2 < 11 := by
  constructor
  · decide
  · decide

/-! ### Claim C2: process after finish -/

/-- C2 (amended): the engine has no terminal FINISHED state and raises no
invalid-state error: `finish` only clears the carry, so when the carry is
already empty a subsequent `process` call behaves exactly as it would
have without the `finish` — processing continues normally. -/
theorem c2_process_after_finish (s : StreamTextParser) (chunk : List Char)
    (h : s.carry = []) :
    (s.finish).2.processChunk chunk = s.processChunk chunk := by
  cases s with
  | mk al st ca lt ht hn =>
    simp only [StreamTextParser.finish]
    simp at h
    subst h
    rfl

theorem c2_witness :
    (StreamTextParser.init [] true).carry = [] ∧
      ((StreamTextParser.init [] true).finish.2.processChunk ['h'] =
        (StreamTextParser.init [] true).processChunk ['h']) :=
  ⟨rfl, c2_process_after_finish _ _ rfl⟩

/-- C2 counterexample: calling `process` after `finish` is not rejected
and does mutate the engine: after `finish` on a fresh engine, processing
`"[Happy] hi"` returns ordinary clean text and a tag, and updates
`last_tag` — there is no invalid-state error path in the code. -/
theorem c2_counterexample :
    (let s1 := ((StreamTextParser.init [['H', 'a', 'p', 'p', 'y']] true).finish).2
     let r := s1.processChunk ['[', 'H', 'a', 'p', 'p', 'y', ']', ' ', 'h', 'i']
     r.2.1 = [' ', 'h', 'i'] ∧ r.2.2 = [['H', 'a', 'p', 'p', 'y']] ∧
       r.1.lastTag = some ['H', 'a', 'p', 'p', 'y'] ∧ s1.lastTag = none) := by
  decide

/-! ### Claim C3: default tag at finish -/

theorem processChunk_lastTag_of_no_tags (s : StreamTextParser) (chunk : List Char)
    (h : (s.processChunk chunk).2.2 = []) : (s.processChunk chunk).1.lastTag = s.lastTag := by
  by_cases hc : chunk = []
  · simp [StreamTextParser.processChunk, hc]
  · simp only [StreamTextParser.processChunk, if_neg hc] at h ⊢
    rw [h]
    simp

theorem runChunks_lastTag_of_no_tags (s : StreamTextParser) (fs : List (List Char))
    (h : ∀ o ∈ (runChunks s fs).2, o.2 = []) :
    (runChunks s fs).1.lastTag = s.lastTag := by
  induction fs generalizing s with
  | nil => rfl
  | cons f fs ih =>
    simp only [runChunks] at h ⊢
    have h1 : (s.processChunk f).2.2 = [] :=
      h ((s.processChunk f).2.1, (s.processChunk f).2.2) (List.mem_cons_self _ _)
    have h2 : ∀ o ∈ (runChunks (s.processChunk f).1 fs).2, o.2 = [] :=
      fun o ho => h o (List.mem_cons_of_mem _ ho)
    rw [ih _ h2, processChunk_lastTag_of_no_tags s f h1]

theorem eprocessChunk_last_of_no_tags (s : EmotionTagParser) (chunk : List Char)
    (h : (s.processChunk chunk).2.2 = []) :
    (s.processChunk chunk).1.lastEmotion = s.lastEmotion := by
  by_cases hc : chunk = []
  · simp [EmotionTagParser.processChunk, hc]
  · simp only [EmotionTagParser.processChunk, if_neg hc] at h ⊢
    rw [h]
    simp

theorem erunChunks_last_of_no_tags (s : EmotionTagParser) (fs : List (List Char))
    (h : ∀ o ∈ (erunChunks s fs).2, o.2 = []) :
    (erunChunks s fs).1.lastEmotion = s.lastEmotion := by
  induction fs generalizing s with
  | nil => rfl
  | cons f fs ih =>
    simp only [erunChunks] at h ⊢
    have h1 : (s.processChunk f).2.2 = [] :=
      h ((s.processChunk f).2.1, (s.processChunk f).2.2) (List.mem_cons_self _ _)
    have h2 : ∀ o ∈ (erunChunks (s.processChunk f).1 fs).2, o.2 = [] :=
      fun o ho => h o (List.mem_cons_of_mem _ ho)
    rw [ih _ h2, eprocessChunk_last_of_no_tags s f h1]

/-- C3 (amended): the generic `StreamTextParser` is constructed without
any default tag, and on every run in which no tag was ever recognized its
`finish` returns `none` (an absent value) as the last tag; only the
minimal `EmotionTagParser` variant takes a `default_emotion` at
construction and returns it from `finish` when no tag was recognized. -/
theorem c3_no_default_in_generic (al : List (List Char)) (st : Bool) (fs : List (List Char))
    (E : List (List Char)) (d : List Char) (fs2 : List (List Char))
    (h1 : ∀ o ∈ (runChunks (StreamTextParser.init al st) fs).2, o.2 = [])
    (h2 : ∀ o ∈ (erunChunks (EmotionTagParser.init E d) fs2).2, o.2 = []) :
    ((runChunks (StreamTextParser.init al st) fs).1.finish).1.2 = none ∧
      ((erunChunks (EmotionTagParser.init E d) fs2).1.finish).1.2 = d := by
  constructor
  · show (runChunks (StreamTextParser.init al st) fs).1.lastTag = none
    rw [runChunks_lastTag_of_no_tags _ _ h1]
    rfl
  · show (erunChunks (EmotionTagParser.init E d) fs2).1.lastEmotion = d
    rw [erunChunks_last_of_no_tags _ _ h2]
    rfl

theorem c3_witness :
    (∀ o ∈ (runChunks (StreamTextParser.init [['T']] true) [['h', 'e', 'y']]).2, o.2 = []) ∧
      (((runChunks (StreamTextParser.init [['T']] true) [['h', 'e', 'y']]).1.finish).1.2 = none ∧
        ((erunChunks (EmotionTagParser.init [['T']] ['d']) [['h', 'e', 'y']]).1.finish).1.2 = ['d']) :=
  ⟨by decide, c3_no_default_in_generic [['T']] true [['h', 'e', 'y']] [['T']] ['d'] [['h', 'e', 'y']]
    (by decide) (by decide)⟩

/-- C3 counterexample: the constructor of the generic engine takes no
default tag, and after a run that recognizes no tag its `finish` returns
`none` — an absent value — not a configured default. -/
theorem c3_counterexample :
    ((runChunks (StreamTextParser.init [['H', 'i']] true) [['h', 'e', 'y']]).1.finish).1.2 = none := by
  decide

/-! ### Claim C5: bare-tag detector firing -/

/-- C5 (amended): the bare-tag detector is gated on emitted
non-whitespace clean text, not on a fire count: once `process` has
emitted clean text containing a non-whitespace character the flag
`_has_output_non_ws` is and stays true and the detector can never fire
again; while only empty or whitespace clean text has been emitted the
detector may fire in several calls (see the counterexample). -/
theorem c5_detector_gated (s : StreamTextParser) (chunk : List Char)
    (h : s.hasOutputNonWs = true) :
    processChunkFired s chunk = false ∧ (s.processChunk chunk).1.hasOutputNonWs = true := by
  constructor
  · by_cases hc : chunk = []
    · simp [processChunkFired, hc]
    · simp only [processChunkFired, if_neg hc]
      rw [bareScan, if_neg]
      · rfl
      · simp [h]
  · by_cases hc : chunk = []
    · simp [StreamTextParser.processChunk, hc, h]
    · simp [StreamTextParser.processChunk, hc, h]

theorem c5_witness :
    (((StreamTextParser.init [['H', 'i']] true).processChunk ['x']).1.hasOutputNonWs = true) ∧
      (processChunkFired ((StreamTextParser.init [['H', 'i']] true).processChunk ['x']).1
          ['H', 'i'] = false ∧
        ((((StreamTextParser.init [['H', 'i']] true).processChunk ['x']).1.processChunk
            ['H', 'i']).1.hasOutputNonWs = true)) :=
  ⟨by decide, c5_detector_gated _ _ (by decide)⟩

/-- C5 counterexample: with `allowed_tags = {"Hi"}`, the fragments
`"Hi "` then `"Hi x"` make the detector fire in two distinct `process`
calls on the same instance (the first call emits only the empty string,
so `_has_output_non_ws` stays false). -/
theorem c5_counterexample :
    (let s0 := StreamTextParser.init [['H', 'i']] true
     processChunkFired s0 ['H', 'i', ' '] = true ∧
       processChunkFired (s0.processChunk ['H', 'i', ' ']).1 ['H', 'i', ' ', 'x'] = true) := by
  decide

/-! ### Claim C10: permissive mode accepts empty bracket pairs -/

theorem splitFirst_none_of_not_mem {c : Char} {l : List Char} (h : c ∉ l) :
    splitFirst c l = none := by
  cases hx : splitFirst c l with
  | none => rfl
  | some ps =>
    obtain ⟨p, s⟩ := ps
    have hd := (splitFirst_some hx).1
    exact absurd (by rw [hd]; simp : c ∈ l) h

theorem dropWhile_eq_nil_of_all {p : Char → Bool} {l : List Char}
    (h : ∀ c ∈ l, p c = true) : l.dropWhile p = [] := by
  induction l with
  | nil => rfl
  | cons x xs ih =>
    rw [List.dropWhile_cons, if_pos (h x (List.mem_cons_self x xs))]
    exact ih fun c hc => h c (List.mem_cons_of_mem _ hc)

theorem pyStrip_all_space {w : List Char} (h : ∀ c ∈ w, pyIsSpace c = true) :
    pyStrip w = [] := by
  rw [pyStrip, dropWhile_eq_nil_of_all h]
  rfl

theorem pyIsSpace_ne_brackets {c : Char} (h : pyIsSpace c = true) : c ≠ '[' ∧ c ≠ ']' := by
  constructor <;> rintro rfl <;> exact absurd h (by decide)

/-- C10: in permissive mode (empty `allowed_tags`), a complete bracket
pair whose inner text is whitespace-only is treated as a recognized tag:
the span is removed from the clean text, the empty string is appended to
`tags_found`, and `last_tag` becomes the empty string.  (Stated for a
permissive engine with empty carry and filtering off, surrounded by
arbitrary bracket-free text.) -/
theorem c10_permissive_empty_tag (s : StreamTextParser) (l w r : List Char)
    (hE : s.allowedSet = []) (hst : s.stripNonEnglish = false) (hca : s.carry = [])
    (hl : ∀ c ∈ l, c ≠ '[' ∧ c ≠ ']')
    (hw : ∀ c ∈ w, pyIsSpace c = true)
    (hr : ∀ c ∈ r, c ≠ '[' ∧ c ≠ ']') :
    (s.processChunk (l ++ '[' :: (w ++ ']' :: r))).2.1 = l ++ r ∧
      (s.processChunk (l ++ '[' :: (w ++ ']' :: r))).2.2 = [[]] ∧
      (s.processChunk (l ++ '[' :: (w ++ ']' :: r))).1.lastTag = some [] := by
  have hne : l ++ '[' :: (w ++ ']' :: r) ≠ [] := by simp
  have hlno : '[' ∉ l := fun hmem => (hl _ hmem).1 rfl
  have hrno : '[' ∉ r := fun hmem => (hr _ hmem).1 rfl
  have hwnc : ']' ∉ w := fun hmem => (pyIsSpace_ne_brackets (hw _ hmem)).2 rfl
  have hfil : filterChars s.stripNonEnglish (l ++ '[' :: (w ++ ']' :: r)) =
      l ++ '[' :: (w ++ ']' :: r) := by
    rw [filterChars, hst]
    simp
  have hb : bareScan s (s.carry ++ filterChars s.stripNonEnglish (l ++ '[' :: (w ++ ']' :: r)))
      = (none, l ++ '[' :: (w ++ ']' :: r)) := by
    rw [hfil, hca, List.nil_append, bareScan, if_neg]
    intro hcond
    exact hcond.2.1 hE
  have h1 : splitFirst '[' (l ++ '[' :: (w ++ ']' :: r)) = some (l, w ++ ']' :: r) :=
    splitFirst_of_decomp hlno
  have h2 : splitFirst ']' (w ++ ']' :: r) = some (w, r) := splitFirst_of_decomp hwnc
  have hscan : scanLoop ([] : List (List Char)) (l ++ '[' :: (w ++ ']' :: r)) = (l, [[]], r) := by
    rw [scanLoop_span ([] : List (List Char)) h1 h2, if_pos (Or.inl rfl),
        scanLoop_no_open _ (splitFirst_none_of_not_mem hrno), pyStrip_all_space hw]
    simp
  have hsc : splitCarry r = (r, []) := splitCarry_no_open hrno
  refine ⟨?_, ?_, ?_⟩ <;>
    simp [StreamTextParser.processChunk, if_neg hne, hb, hE, hscan, hsc]

theorem c10_witness :
    (∀ c ∈ ['a'], c ≠ '[' ∧ c ≠ ']') ∧
      (((StreamTextParser.init [] false).processChunk
          (['a'] ++ '[' :: ([' '] ++ ']' :: ['b']))).2.1 = ['a'] ++ ['b'] ∧
        ((StreamTextParser.init [] false).processChunk
          (['a'] ++ '[' :: ([' '] ++ ']' :: ['b']))).2.2 = [[]] ∧
        ((StreamTextParser.init [] false).processChunk
          (['a'] ++ '[' :: ([' '] ++ ']' :: ['b']))).1.lastTag = some []) :=
  ⟨by decide, c10_permissive_empty_tag _ ['a'] [' '] ['b'] rfl rfl rfl
    (by decide) (by decide) (by decide)⟩

/-! ### Claim C8: character-filter sanitization -/

theorem mem_dropWhile_subset {p : Char → Bool} {l : List Char} {c : Char}
    (h : c ∈ l.dropWhile p) : c ∈ l := by
  induction l with
  | nil => simp at h
  | cons x xs ih =>
    rw [List.dropWhile_cons] at h
    by_cases hx : p x = true
    · rw [if_pos hx] at h
      exact List.mem_cons_of_mem _ (ih h)
    · rw [if_neg hx] at h
      exact h

theorem bareScan_subset (s : StreamTextParser) (combined : List Char) {c : Char}
    (h : c ∈ (bareScan s combined).2) : c ∈ combined := by
  rw [bareScan] at h
  by_cases hcond : s.hasOutputNonWs = false ∧ s.allowedSet ≠ [] ∧ combined ≠ []
  · rw [if_pos hcond] at h
    by_cases hj : (combined.takeWhile pyIsSpace).length < combined.length
    · rw [if_pos hj] at h
      cases hm : leadingTagMatch s.allowedSet (combined.drop (combined.takeWhile pyIsSpace).length) with
      | none => rw [hm] at h; exact h
      | some tag =>
        rw [hm] at h
        simp only at h
        exact List.drop_subset _ _ (mem_dropWhile_subset h)
    · rw [if_neg hj] at h
      exact h
  · rw [if_neg hcond] at h
    exact h

theorem scanLoop_chars (E : List (List Char)) (P : Char → Prop) :
    ∀ (n : Nat) (rest : List Char), rest.length ≤ n → (∀ c ∈ rest, P c) →
      (∀ c ∈ (scanLoop E rest).1, P c) ∧ (∀ c ∈ (scanLoop E rest).2.2, P c) := by
  intro n
  induction n with
  | zero =>
    intro rest h hall
    have hr : rest = [] := List.length_eq_zero.1 (Nat.le_zero.1 h)
    subst hr
    simp [scanLoop_nil]
  | succ n ih =>
    intro rest h hall
    cases h1 : splitFirst '[' rest with
    | none =>
      rw [scanLoop_no_open E h1]
      exact ⟨by simp, hall⟩
    | some po =>
      obtain ⟨pre, ao⟩ := po
      cases h2 : splitFirst ']' ao with
      | none =>
        rw [scanLoop_no_close E h1 h2]
        exact ⟨by simp, hall⟩
      | some ia =>
        obtain ⟨inn, ac⟩ := ia
        have l1 := splitFirst_lengths h1
        have l2 := splitFirst_lengths h2
        obtain ⟨hd1, _⟩ := splitFirst_some h1
        obtain ⟨hd2, _⟩ := splitFirst_some h2
        have hle : ac.length ≤ n := by omega
        have hpre : ∀ c ∈ pre, P c := by
          intro c hcm
          exact hall c (by rw [hd1]; simp [hcm])
        have hac : ∀ c ∈ ac, P c := by
          intro c hcm
          refine hall c ?_
          rw [hd1, hd2]
          simp [hcm]
        obtain ⟨ihe, iht⟩ := ih ac hle hac
        rw [scanLoop_span E h1 h2]
        by_cases hcnd : E = [] ∨ pyStrip inn ∈ E
        · rw [if_pos hcnd]
          refine ⟨?_, iht⟩
          intro c hcm
          rcases List.mem_append.1 hcm with hm | hm
          · exact hpre _ hm
          · exact ihe _ hm
        · rw [if_neg hcnd]
          exact ⟨ihe, iht⟩

theorem splitCarry_chars (tail : List Char) (P : Char → Prop) (h : ∀ c ∈ tail, P c) :
    (∀ c ∈ (splitCarry tail).1, P c) ∧ (∀ c ∈ (splitCarry tail).2, P c) := by
  rw [splitCarry]
  cases hlo : rfindIdx '[' tail with
  | none => exact ⟨h, by simp⟩
  | some lo =>
    cases hlc : rfindIdx ']' tail with
    | none =>
      exact ⟨fun c hc => h c (List.take_subset _ _ hc), fun c hc => h c (List.drop_subset _ _ hc)⟩
    | some lc =>
      by_cases hcmp : lc < lo
      · simp only [if_pos hcmp]
        exact ⟨fun c hc => h c (List.take_subset _ _ hc), fun c hc => h c (List.drop_subset _ _ hc)⟩
      · simp only [if_neg hcmp]
        exact ⟨h, by simp⟩

theorem processChunk_chars (s : StreamTextParser) (chunk : List Char)
    (hst : s.stripNonEnglish = true)
    (hcarry : ∀ c ∈ s.carry, isProseChar c = true) :
    (∀ c ∈ (s.processChunk chunk).2.1, isProseChar c = true) ∧
      (∀ c ∈ (s.processChunk chunk).1.carry, isProseChar c = true) := by
  by_cases hc : chunk = []
  · refine ⟨?_, ?_⟩ <;> simp only [StreamTextParser.processChunk, if_pos hc]
    · simp
    · exact hcarry
  · simp only [StreamTextParser.processChunk, if_neg hc]
    have hcomb : ∀ c ∈ s.carry ++ filterChars s.stripNonEnglish chunk, isProseChar c = true := by
      intro c hcm
      rcases List.mem_append.1 hcm with hm | hm
      · exact hcarry c hm
      · rw [filterChars, hst] at hm
        simp at hm
        exact hm.2
    have hbuf : ∀ c ∈ (bareScan s (s.carry ++ filterChars s.stripNonEnglish chunk)).2,
        isProseChar c = true := fun c hcm => hcomb c (bareScan_subset s _ hcm)
    obtain ⟨he, ht⟩ := scanLoop_chars s.allowedSet (fun c => isProseChar c = true) _ _
      (Nat.le_refl _) hbuf
    obtain ⟨hf, hcr⟩ := splitCarry_chars _ _ ht
    refine ⟨?_, hcr⟩
    intro c hcm
    rcases List.mem_append.1 hcm with hm | hm
    · exact he c hm
    · exact hf c hm

theorem runChunks_chars (s : StreamTextParser) (fs : List (List Char))
    (hst : s.stripNonEnglish = true)
    (hcarry : ∀ c ∈ s.carry, isProseChar c = true) :
    (∀ o ∈ (runChunks s fs).2, ∀ c ∈ o.1, isProseChar c = true) ∧
      (∀ c ∈ (runChunks s fs).1.carry, isProseChar c = true) := by
  induction fs generalizing s with
  | nil => exact ⟨by simp [runChunks], hcarry⟩
  | cons f fs ih =>
    obtain ⟨hclean, hcarry'⟩ := processChunk_chars s f hst hcarry
    have hst' : (s.processChunk f).1.stripNonEnglish = true := by
      rw [(processChunk_preserves_config s f).2, hst]
    obtain ⟨hrec1, hrec2⟩ := ih (s.processChunk f).1 hst' hcarry'
    refine ⟨?_, ?_⟩
    · intro o ho
      simp only [runChunks] at ho
      rcases List.mem_cons.1 ho with hm | hm
      · subst hm
        exact hclean
      · exact hrec1 o hm
    · simp only [runChunks]
      exact hrec2

/-- C8: with the non-prose filter enabled, on every input sequence every
character of every per-call `clean_text` and of the `finish` residual is
horizontal tab, line feed, carriage return or printable ASCII. -/
theorem c8_prose_only (al : List (List Char)) (fs : List (List Char)) :
    (∀ o ∈ (runChunks (StreamTextParser.init al true) fs).2, ∀ c ∈ o.1, isProseChar c = true) ∧
      (∀ c ∈ ((runChunks (StreamTextParser.init al true) fs).1.finish).1.1, isProseChar c = true) := by
  obtain ⟨h1, h2⟩ := runChunks_chars (StreamTextParser.init al true) fs rfl (by simp [StreamTextParser.init])
  exact ⟨h1, h2⟩

theorem c8_witness :
    ((['h'], ([] : List (List Char))) ∈ (runChunks (StreamTextParser.init [] true) [['h']]).2 ∧
      'h' ∈ ['h']) ∧ isProseChar 'h' = true :=
  ⟨⟨by decide, by decide⟩, (c8_prose_only [] [['h']]).1 (['h'], []) (by decide) 'h' (by decide)⟩

/-! ### Claim C6: disallowed-tag suppression -/

theorem contains_eq_false_of_not_mem {a : Char} {l : List Char} (h : a ∉ l) :
    l.contains a = false := by
  cases hc : l.contains a
  · rfl
  · exact absurd (List.elem_iff.1 hc) h

theorem contains_eq_true_of_mem {a : Char} {l : List Char} (h : a ∈ l) :
    l.contains a = true :=
  List.elem_iff.2 h

theorem dropWhile_append_of_all {p : Char → Bool} {x : List Char} (y : List Char)
    (h : ∀ c ∈ x, p c = true) : (x ++ y).dropWhile p = y.dropWhile p := by
  induction x with
  | nil => rfl
  | cons a xs ih =>
    rw [List.cons_append, List.dropWhile_cons, if_pos (h a (List.mem_cons_self _ _))]
    exact ih fun c hc => h c (List.mem_cons_of_mem _ hc)

theorem spanFree_of_no_open {l : List Char} (h : '[' ∉ l) : spanFree l = true := by
  rw [spanFree, dropWhile_eq_nil_of_all]
  · rfl
  · intro c hc
    simp
    exact fun he => h (he ▸ hc)

theorem spanFree_open {l : List Char} : spanFree ('[' :: l) = !(l.contains ']') := by
  rw [spanFree, List.dropWhile_cons, if_neg (by simp)]
  rfl

theorem spanFree_cons {x : Char} {l : List Char} (hx : ¬x = '[') :
    spanFree (x :: l) = spanFree l := by
  rw [spanFree, spanFree, List.dropWhile_cons, if_pos (by simp [hx])]

theorem spanFree_concat {x y : List Char} (hx : '[' ∉ x) (hy : ']' ∉ y) :
    spanFree (x ++ y) = true := by
  rw [spanFree, dropWhile_append_of_all y (fun c hc => by simp; exact fun he => hx (he ▸ hc))]
  have hsub : ∀ c ∈ (y.dropWhile (fun c => decide (c ≠ '['))).drop 1, c ∈ y := by
    intro c hc
    exact mem_dropWhile_subset (List.drop_subset _ _ hc)
  rw [contains_eq_false_of_not_mem (fun hm => hy (hsub _ hm))]
  rfl

theorem spanFree_prepend {e rest : List Char} (he : '[' ∉ e) :
    spanFree (e ++ rest) = spanFree rest := by
  rw [spanFree, spanFree, dropWhile_append_of_all rest (fun c hc => by
    simp
    exact fun hq => he (hq ▸ hc))]

theorem spanFree_false_of_span {b : List Char} (hb : (']' : Char) ∈ b) :
    ∀ a : List Char, spanFree (a ++ '[' :: b) = false := by
  intro a
  induction a with
  | nil =>
    rw [List.nil_append, spanFree_open, contains_eq_true_of_mem hb]
    rfl
  | cons x xs ih =>
    by_cases hx : x = '['
    · subst hx
      rw [List.cons_append, spanFree_open]
      have : (']' : Char) ∈ xs ++ '[' :: b := by simp [hb]
      rw [contains_eq_true_of_mem this]
      rfl
    · rw [List.cons_append, spanFree_cons hx]
      exact ih

theorem containsSeg_iff {pat l : List Char} :
    containsSeg pat l = true ↔ ∃ a b, l = a ++ pat ++ b := by
  induction l with
  | nil =>
    rw [containsSeg]
    simp only [decide_eq_true_eq]
    constructor
    · intro h
      subst h
      exact ⟨[], [], rfl⟩
    · rintro ⟨a, b, hab⟩
      have h1 := List.append_eq_nil.1 hab.symm
      have h2 := List.append_eq_nil.1 h1.1
      exact h2.2
  | cons c cs ih =>
    rw [containsSeg]
    simp only [Bool.or_eq_true, decide_eq_true_eq]
    constructor
    · rintro (h | h)
      · refine ⟨[], (c :: cs).drop pat.length, ?_⟩
        rw [List.nil_append]
        conv_lhs => rw [← List.take_append_drop pat.length (c :: cs)]
        rw [h]
      · obtain ⟨a, b, hab⟩ := ih.1 h
        exact ⟨c :: a, b, by rw [hab]; rfl⟩
    · rintro ⟨a, b, hab⟩
      cases a with
      | nil =>
        left
        rw [List.nil_append] at hab
        rw [hab]
        exact List.take_left pat b
      | cons a0 as =>
        right
        apply ih.2
        rw [List.cons_append, List.cons_append] at hab
        injection hab with h1 h2
        exact ⟨as, b, h2⟩

theorem spanFree_no_seg {nm l : List Char} (h : spanFree l = true) :
    containsSeg ('[' :: (nm ++ [']'])) l = false := by
  cases hc : containsSeg ('[' :: (nm ++ [']'])) l
  · rfl
  · exfalso
    obtain ⟨a, b, hab⟩ := containsSeg_iff.1 hc
    have hl : l = a ++ '[' :: (nm ++ ']' :: b) := by rw [hab]; simp
    have hmem : (']' : Char) ∈ nm ++ ']' :: b := by simp
    have hfalse := spanFree_false_of_span hmem a
    rw [← hl] at hfalse
    rw [hfalse] at h
    exact absurd h (by simp)

theorem scanLoop_tail_shape (E : List (List Char)) :
    ∀ (n : Nat) (rest : List Char), rest.length ≤ n →
      ('[' ∉ (scanLoop E rest).2.2) ∨
        ∃ a b, (scanLoop E rest).2.2 = a ++ '[' :: b ∧ '[' ∉ a ∧ ']' ∉ b := by
  intro n
  induction n with
  | zero =>
    intro rest h
    have hr : rest = [] := List.length_eq_zero.1 (Nat.le_zero.1 h)
    subst hr
    rw [scanLoop_nil]
    exact Or.inl (by simp)
  | succ n ih =>
    intro rest h
    cases h1 : splitFirst '[' rest with
    | none =>
      rw [scanLoop_no_open E h1]
      exact Or.inl (splitFirst_none h1)
    | some po =>
      obtain ⟨pre, ao⟩ := po
      cases h2 : splitFirst ']' ao with
      | none =>
        rw [scanLoop_no_close E h1 h2]
        obtain ⟨hd1, hp1⟩ := splitFirst_some h1
        exact Or.inr ⟨pre, ao, hd1, hp1, splitFirst_none h2⟩
      | some ia =>
        obtain ⟨inn, ac⟩ := ia
        have l1 := splitFirst_lengths h1
        have l2 := splitFirst_lengths h2
        have hle : ac.length ≤ n := by omega
        rw [scanLoop_span E h1 h2]
        by_cases hcnd : E = [] ∨ pyStrip inn ∈ E
        · rw [if_pos hcnd]
          exact ih ac hle
        · rw [if_neg hcnd]
          exact ih ac hle

theorem scanLoop_emitted_no_open (E : List (List Char)) :
    ∀ (n : Nat) (rest : List Char), rest.length ≤ n → '[' ∉ (scanLoop E rest).1 := by
  intro n
  induction n with
  | zero =>
    intro rest h
    have hr : rest = [] := List.length_eq_zero.1 (Nat.le_zero.1 h)
    subst hr
    rw [scanLoop_nil]
    simp
  | succ n ih =>
    intro rest h
    cases h1 : splitFirst '[' rest with
    | none =>
      rw [scanLoop_no_open E h1]
      simp
    | some po =>
      obtain ⟨pre, ao⟩ := po
      cases h2 : splitFirst ']' ao with
      | none =>
        rw [scanLoop_no_close E h1 h2]
        simp
      | some ia =>
        obtain ⟨inn, ac⟩ := ia
        have l1 := splitFirst_lengths h1
        have l2 := splitFirst_lengths h2
        have hle : ac.length ≤ n := by omega
        rw [scanLoop_span E h1 h2]
        obtain ⟨_, hp1⟩ := splitFirst_some h1
        by_cases hcnd : E = [] ∨ pyStrip inn ∈ E
        · rw [if_pos hcnd]
          intro hm
          rcases List.mem_append.1 hm with hm | hm
          · exact hp1 hm
          · exact ih ac hle hm
        · rw [if_neg hcnd]
          exact ih ac hle

theorem scanLoop_tags_mem (E : List (List Char)) (hE : E ≠ []) :
    ∀ (n : Nat) (rest : List Char), rest.length ≤ n →
      ∀ t ∈ (scanLoop E rest).2.1, t ∈ E := by
  intro n
  induction n with
  | zero =>
    intro rest h
    have hr : rest = [] := List.length_eq_zero.1 (Nat.le_zero.1 h)
    subst hr
    rw [scanLoop_nil]
    simp
  | succ n ih =>
    intro rest h
    cases h1 : splitFirst '[' rest with
    | none =>
      rw [scanLoop_no_open E h1]
      simp
    | some po =>
      obtain ⟨pre, ao⟩ := po
      cases h2 : splitFirst ']' ao with
      | none =>
        rw [scanLoop_no_close E h1 h2]
        simp
      | some ia =>
        obtain ⟨inn, ac⟩ := ia
        have l1 := splitFirst_lengths h1
        have l2 := splitFirst_lengths h2
        have hle : ac.length ≤ n := by omega
        rw [scanLoop_span E h1 h2]
        by_cases hcnd : E = [] ∨ pyStrip inn ∈ E
        · rw [if_pos hcnd]
          intro t ht
          rcases List.mem_cons.1 ht with hm | hm
          · rcases hcnd with hc | hc
            · exact absurd hc hE
            · exact hm ▸ hc
          · exact ih ac hle t hm
        · rw [if_neg hcnd]
          exact ih ac hle

theorem foldl_pickLonger_mem :
    ∀ (cs : List (List Char)) (acc : Option (List Char)) (t : List Char),
      cs.foldl pickLonger acc = some t → acc = some t ∨ t ∈ cs := by
  intro cs
  induction cs with
  | nil =>
    intro acc t h
    exact Or.inl h
  | cons x cs ih =>
    intro acc t h
    rw [List.foldl_cons] at h
    rcases ih _ t h with hacc | hmem
    · cases acc with
      | none =>
        simp only [pickLonger] at hacc
        exact Or.inr (by simp at hacc; simp [hacc])
      | some u =>
        simp only [pickLonger] at hacc
        by_cases hlen : u.length < x.length
        · rw [if_pos hlen] at hacc
          exact Or.inr (by simp at hacc; simp [hacc])
        · rw [if_neg hlen] at hacc
          exact Or.inl hacc
    · exact Or.inr (List.mem_cons_of_mem _ hmem)

theorem leadingTagMatch_mem {E : List (List Char)} {buf t : List Char}
    (h : leadingTagMatch E buf = some t) : t ∈ E := by
  rcases foldl_pickLonger_mem _ _ _ h with hacc | hmem
  · exact absurd hacc (by simp)
  · exact (List.mem_filter.1 hmem).1

theorem bareScan_some_mem {s : StreamTextParser} {combined tag : List Char}
    (h : (bareScan s combined).1 = some tag) : tag ∈ s.allowedSet := by
  rw [bareScan] at h
  by_cases hcond : s.hasOutputNonWs = false ∧ s.allowedSet ≠ [] ∧ combined ≠ []
  · rw [if_pos hcond] at h
    by_cases hj : (combined.takeWhile pyIsSpace).length < combined.length
    · rw [if_pos hj] at h
      cases hm : leadingTagMatch s.allowedSet (combined.drop (combined.takeWhile pyIsSpace).length) with
      | none => rw [hm] at h; simp at h
      | some t0 =>
        rw [hm] at h
        simp at h
        exact h ▸ leadingTagMatch_mem hm
    · rw [if_neg hj] at h
      simp at h
  · rw [if_neg hcond] at h
    simp at h

theorem processChunk_clean_spanFree (s : StreamTextParser) (chunk : List Char) :
    spanFree (s.processChunk chunk).2.1 = true := by
  by_cases hc : chunk = []
  · simp only [StreamTextParser.processChunk, if_pos hc]
    rfl
  · simp only [StreamTextParser.processChunk, if_neg hc]
    have hem := scanLoop_emitted_no_open s.allowedSet
      (bareScan s (s.carry ++ filterChars s.stripNonEnglish chunk)).2.length
      (bareScan s (s.carry ++ filterChars s.stripNonEnglish chunk)).2 (Nat.le_refl _)
    have hsh := scanLoop_tail_shape s.allowedSet
      (bareScan s (s.carry ++ filterChars s.stripNonEnglish chunk)).2.length
      (bareScan s (s.carry ++ filterChars s.stripNonEnglish chunk)).2 (Nat.le_refl _)
    have hfl : spanFree (splitCarry
        (scanLoop s.allowedSet (bareScan s (s.carry ++ filterChars s.stripNonEnglish chunk)).2).2.2).1 = true := by
      rcases hsh with hno | ⟨a, b, hab, ha, hb⟩
      · rw [splitCarry_no_open hno]
        exact spanFree_of_no_open hno
      · rw [hab]
        by_cases hbin : '[' ∈ b
        · obtain ⟨a2, b2, hb2, ha2⟩ := exists_last_mem hbin
          have htl : a ++ '[' :: b = (a ++ '[' :: a2) ++ '[' :: b2 := by rw [hb2]; simp
          have hb2c : (']' : Char) ∉ b2 := fun hm => hb (by rw [hb2]; simp [hm])
          rw [htl, splitCarry_open ha2 hb2c]
          apply spanFree_concat ha
          intro hm
          rcases List.mem_cons.1 hm with hq | hq
          · exact absurd hq (by decide)
          · exact hb (by rw [hb2]; simp [hq])
        · rw [splitCarry_open hbin hb]
          exact spanFree_of_no_open ha
    rw [spanFree_prepend hem]
    exact hfl

theorem carryInv_spanFree {l : List Char} (h : carryInv l) : spanFree l = true := by
  rcases h with h | ⟨hh, hnc⟩
  · subst h
    rfl
  · cases l with
    | nil => rfl
    | cons x xs =>
      simp at hh
      subst hh
      rw [spanFree_open,
        contains_eq_false_of_not_mem (fun hm => hnc (List.mem_cons_of_mem _ hm))]
      rfl

theorem processChunk_tags_mem (s : StreamTextParser) (chunk : List Char)
    (hE : s.allowedSet ≠ []) :
    ∀ t ∈ (s.processChunk chunk).2.2, t ∈ s.allowedSet := by
  by_cases hc : chunk = []
  · simp [StreamTextParser.processChunk, hc]
  · simp only [StreamTextParser.processChunk, if_neg hc]
    intro t ht
    rcases List.mem_append.1 ht with hm | hm
    · cases hbs : (bareScan s (s.carry ++ filterChars s.stripNonEnglish chunk)).1 with
      | none => rw [hbs] at hm; simp at hm
      | some tag =>
        rw [hbs] at hm
        simp at hm
        exact hm ▸ bareScan_some_mem hbs
    · exact scanLoop_tags_mem s.allowedSet hE _ _ (Nat.le_refl _) t hm

theorem runChunks_c6_core (nm : List Char) (fs : List (List Char)) :
    ∀ (s : StreamTextParser), s.allowedSet ≠ [] → nm ∉ s.allowedSet → carryInv s.carry →
      (∀ o ∈ (runChunks s fs).2, spanFree o.1 = true ∧ nm ∉ o.2) ∧
        carryInv (runChunks s fs).1.carry := by
  induction fs with
  | nil =>
    intro s _ _ hci
    exact ⟨by simp [runChunks], hci⟩
  | cons f fs ih =>
    intro s hE hnm hci
    have hE' : (s.processChunk f).1.allowedSet ≠ [] := by
      rw [(processChunk_preserves_config s f).1]
      exact hE
    have hnm' : nm ∉ (s.processChunk f).1.allowedSet := by
      rw [(processChunk_preserves_config s f).1]
      exact hnm
    obtain ⟨hrec1, hrec2⟩ := ih (s.processChunk f).1 hE' hnm' (processChunk_carryInv s f hci)
    refine ⟨?_, ?_⟩
    · intro o ho
      simp only [runChunks] at ho
      rcases List.mem_cons.1 ho with hm | hm
      · subst hm
        refine ⟨processChunk_clean_spanFree s f, fun hmem => ?_⟩
        exact hnm (processChunk_tags_mem s f hE nm hmem)
      · exact hrec1 o hm
    · simp only [runChunks]
      exact hrec2

/-- C6: with a non-empty allowed set, for every tag name not in the set
and every input sequence, the span `[Name]` occurs in no per-call
`clean_text` nor in the `finish` residual, and `Name` occurs in no
`tags_found` list. -/
theorem c6_disallowed_suppressed (E : List (List Char)) (st : Bool) (nm : List Char)
    (fs : List (List Char)) (hE : E ≠ []) (hnm : nm ∉ E) :
    (∀ o ∈ (runChunks (StreamTextParser.init E st) fs).2,
        containsSeg ('[' :: (nm ++ [']'])) o.1 = false ∧ nm ∉ o.2) ∧
      containsSeg ('[' :: (nm ++ [']']))
        ((runChunks (StreamTextParser.init E st) fs).1.finish).1.1 = false := by
  obtain ⟨h1, h2⟩ := runChunks_c6_core nm fs (StreamTextParser.init E st) hE hnm (Or.inl rfl)
  refine ⟨?_, ?_⟩
  · intro o ho
    obtain ⟨hsf, htg⟩ := h1 o ho
    exact ⟨spanFree_no_seg hsf, htg⟩
  · exact spanFree_no_seg (carryInv_spanFree h2)

theorem c6_witness :
    (([['H', 'i']] : List (List Char)) ≠ [] ∧ ['B'] ∉ [['H', 'i']]) ∧
      ((∀ o ∈ (runChunks (StreamTextParser.init [['H', 'i']] true) [['[', 'B', ']', 'x']]).2,
          containsSeg ('[' :: (['B'] ++ [']'])) o.1 = false ∧ ['B'] ∉ o.2) ∧
        containsSeg ('[' :: (['B'] ++ [']']))
          ((runChunks (StreamTextParser.init [['H', 'i']] true) [['[', 'B', ']', 'x']]).1.finish).1.1 = false) :=
  ⟨⟨by decide, by decide⟩,
    c6_disallowed_suppressed [['H', 'i']] true ['B'] [['[', 'B', ']', 'x']] (by decide) (by decide)⟩

/-! ### Claim C1: fragmentation invariance — permissive-mode core -/

theorem pcore_no_open {u : List Char} (h : '[' ∉ u) : pcore u = (u, []) := by
  simp only [pcore]
  rw [scanLoop_no_open _ (splitFirst_none_of_not_mem h)]
  simp only
  rw [splitCarry_no_open h]
  simp

theorem pcore_unmatched {pre ao : List Char} (hp : '[' ∉ pre) (hc : ']' ∉ ao)
    (hao : '[' ∉ ao) : pcore (pre ++ '[' :: ao) = (pre, '[' :: ao) := by
  simp only [pcore]
  rw [scanLoop_no_close _ (splitFirst_of_decomp hp) (splitFirst_none_of_not_mem hc)]
  simp only
  rw [splitCarry_open hao hc]
  simp

theorem pcore_span {pre inn rest : List Char} (hp : '[' ∉ pre) (hi : ']' ∉ inn) :
    pcore (pre ++ '[' :: (inn ++ ']' :: rest)) = (pre ++ (pcore rest).1, (pcore rest).2) := by
  simp only [pcore]
  rw [scanLoop_span _ (splitFirst_of_decomp hp) (splitFirst_of_decomp hi),
    if_pos (Or.inl rfl)]
  simp [List.append_assoc]

theorem pcore_no_close2 {vp a2 b2 : List Char} (hp : '[' ∉ vp)
    (hc : ']' ∉ a2 ++ '[' :: b2) (hb : '[' ∉ b2) :
    pcore (vp ++ '[' :: (a2 ++ '[' :: b2)) = (vp ++ '[' :: a2, '[' :: b2) := by
  have hb2c : (']' : Char) ∉ b2 := fun hm => hc (by simp [hm])
  simp only [pcore]
  rw [scanLoop_no_close _ (splitFirst_of_decomp hp) (splitFirst_none_of_not_mem hc)]
  simp only
  have e : vp ++ '[' :: (a2 ++ '[' :: b2) = (vp ++ '[' :: a2) ++ '[' :: b2 := by simp
  rw [e, splitCarry_open hb hb2c]
  simp

theorem pcore_prepend {pre : List Char} (v : List Char) (h : '[' ∉ pre) :
    pcore (pre ++ v) = (pre ++ (pcore v).1, (pcore v).2) := by
  cases h1 : splitFirst '[' v with
  | none =>
    have hno := splitFirst_none h1
    rw [pcore_no_open hno, pcore_no_open (by
      intro hm
      rcases List.mem_append.1 hm with hm | hm
      · exact h hm
      · exact hno hm)]
  | some po =>
    obtain ⟨vp, vr⟩ := po
    obtain ⟨hd1, hp1⟩ := splitFirst_some h1
    subst hd1
    have hpre2 : '[' ∉ pre ++ vp := by
      intro hm
      rcases List.mem_append.1 hm with hm | hm
      · exact h hm
      · exact hp1 hm
    cases h2 : splitFirst ']' vr with
    | none =>
      have hcno := splitFirst_none h2
      by_cases hbin : '[' ∈ vr
      · obtain ⟨a2, b2, hb2, ha2⟩ := exists_last_mem hbin
        subst hb2
        have e2 : pre ++ (vp ++ '[' :: (a2 ++ '[' :: b2)) =
            (pre ++ vp) ++ '[' :: (a2 ++ '[' :: b2) := by simp
        rw [e2, pcore_no_close2 hpre2 hcno ha2, pcore_no_close2 hp1 hcno ha2]
        simp
      · have e2 : pre ++ (vp ++ '[' :: vr) = (pre ++ vp) ++ '[' :: vr := by simp
        rw [e2, pcore_unmatched hpre2 hcno hbin, pcore_unmatched hp1 hcno hbin]
    | some ia =>
      obtain ⟨inn, ac⟩ := ia
      obtain ⟨hd2, hi2⟩ := splitFirst_some h2
      subst hd2
      have e2 : pre ++ (vp ++ '[' :: (inn ++ ']' :: ac)) =
          (pre ++ vp) ++ '[' :: (inn ++ ']' :: ac) := by simp
      rw [e2, pcore_span (by
          intro hm
          rcases List.mem_append.1 hm with hm | hm
          · exact h hm
          · exact hp1 hm) hi2,
        pcore_span hp1 hi2]
      simp

theorem go_false_no_open : ∀ (a m : List Char), '[' ∉ a →
    noDoubleOpenGo false (a ++ m) = noDoubleOpenGo false m := by
  intro a
  induction a with
  | nil => intro m _; rfl
  | cons x xs ih =>
    intro m h
    have hx : ¬x = '[' := fun he => h (by simp [he])
    have hxs : '[' ∉ xs := fun hm => h (List.mem_cons_of_mem _ hm)
    rw [List.cons_append, noDoubleOpenGo, if_neg hx]
    by_cases hxc : x = ']'
    · rw [if_pos hxc]
      exact ih m hxs
    · rw [if_neg hxc]
      exact ih m hxs

theorem go_true_clean : ∀ (a m : List Char), '[' ∉ a → ']' ∉ a →
    noDoubleOpenGo true (a ++ m) = noDoubleOpenGo true m := by
  intro a
  induction a with
  | nil => intro m _ _; rfl
  | cons x xs ih =>
    intro m h1 h2
    have hx : ¬x = '[' := fun he => h1 (by simp [he])
    have hxc : ¬x = ']' := fun he => h2 (by simp [he])
    rw [List.cons_append, noDoubleOpenGo, if_neg hx, if_neg hxc]
    exact ih m (fun hm => h1 (List.mem_cons_of_mem _ hm)) (fun hm => h2 (List.mem_cons_of_mem _ hm))

theorem go_true_open_dead : ∀ (a m : List Char), '[' ∈ a → ']' ∉ a →
    noDoubleOpenGo true (a ++ m) = false := by
  intro a
  induction a with
  | nil => intro m h _; simp at h
  | cons x xs ih =>
    intro m h1 h2
    rw [List.cons_append, noDoubleOpenGo]
    by_cases hx : x = '['
    · rw [if_pos hx]
      rfl
    · have hx2 : '[' ∈ xs := by
        rcases List.mem_cons.1 h1 with hq | hq
        · exact absurd hq.symm hx
        · exact hq
      have hxc : ¬x = ']' := fun he => h2 (by simp [he])
      rw [if_neg hx, if_neg hxc]
      exact ih m hx2 (fun hm => h2 (List.mem_cons_of_mem _ hm))

theorem go_prefix : ∀ (x y : List Char) (b : Bool),
    noDoubleOpenGo b (x ++ y) = true → noDoubleOpenGo b x = true := by
  intro x
  induction x with
  | nil => intro y b _; rfl
  | cons c cs ih =>
    intro y b h
    rw [List.cons_append, noDoubleOpenGo] at h
    rw [noDoubleOpenGo]
    by_cases hc : c = '['
    · rw [if_pos hc] at h ⊢
      cases b with
      | true => simp at h
      | false =>
        simp only [Bool.false_eq_true, if_false] at h ⊢
        exact ih y true h
    · rw [if_neg hc] at h ⊢
      by_cases hc2 : c = ']'
      · rw [if_pos hc2] at h ⊢
        exact ih y false h
      · rw [if_neg hc2] at h ⊢
        exact ih y b h

theorem noDoubleOpen_no_close {pre ao : List Char} (hp : '[' ∉ pre) (hc : ']' ∉ ao)
    (h : noDoubleOpen (pre ++ '[' :: ao) = true) : '[' ∉ ao := by
  intro hmem
  rw [noDoubleOpen, go_false_no_open pre ('[' :: ao) hp, noDoubleOpenGo, if_pos rfl,
    if_neg (by simp)] at h
  have hdead := go_true_open_dead ao [] hmem hc
  rw [List.append_nil] at hdead
  rw [hdead] at h
  exact absurd h (by simp)

theorem noDoubleOpen_span_tail {pre inn rest : List Char} (hp : '[' ∉ pre) (hi : ']' ∉ inn)
    (h : noDoubleOpen (pre ++ '[' :: (inn ++ ']' :: rest)) = true) :
    noDoubleOpen rest = true := by
  rw [noDoubleOpen, go_false_no_open pre _ hp, noDoubleOpenGo, if_pos rfl,
    if_neg (by simp)] at h
  have hino : '[' ∉ inn := by
    intro hmem
    rw [go_true_open_dead inn (']' :: rest) hmem hi] at h
    exact absurd h (by simp)
  rw [go_true_clean inn (']' :: rest) hino hi, noDoubleOpenGo, if_neg (by decide),
    if_pos rfl] at h
  exact h

theorem pcore_append :
    ∀ (n : Nat) (u t : List Char), u.length ≤ n → noDoubleOpen u = true →
      pcore (u ++ t) = ((pcore u).1 ++ (pcore ((pcore u).2 ++ t)).1,
                        (pcore ((pcore u).2 ++ t)).2) := by
  intro n
  induction n with
  | zero =>
    intro u t hlen _
    have hu : u = [] := List.length_eq_zero.1 (Nat.le_zero.1 hlen)
    subst hu
    simp [pcore_no_open (by simp : '[' ∉ ([] : List Char))]
  | succ n ih =>
    intro u t hlen h
    cases h1 : splitFirst '[' u with
    | none =>
      have hno := splitFirst_none h1
      rw [pcore_no_open hno, pcore_prepend t hno]
      simp
    | some po =>
      obtain ⟨pre, ao⟩ := po
      obtain ⟨hd1, hp1⟩ := splitFirst_some h1
      subst hd1
      cases h2 : splitFirst ']' ao with
      | none =>
        have hcno := splitFirst_none h2
        have hao : '[' ∉ ao := noDoubleOpen_no_close hp1 hcno h
        rw [pcore_unmatched hp1 hcno hao]
        have e1 : (pre ++ '[' :: ao) ++ t = pre ++ ('[' :: ao ++ t) := by simp
        rw [e1, pcore_prepend ('[' :: ao ++ t) hp1]
      | some ia =>
        obtain ⟨inn, ac⟩ := ia
        obtain ⟨hd2, hi2⟩ := splitFirst_some h2
        subst hd2
        have hlen2 : ac.length ≤ n := by
          simp [List.length_append] at hlen
          omega
        have hrec := ih ac t hlen2 (noDoubleOpen_span_tail hp1 hi2 h)
        have e1 : (pre ++ '[' :: (inn ++ ']' :: ac)) ++ t =
            pre ++ '[' :: (inn ++ ']' :: (ac ++ t)) := by simp
        rw [pcore_span hp1 hi2, e1, pcore_span hp1 hi2, hrec]
        simp

theorem processChunk_permissive (s : StreamTextParser) (chunk : List Char)
    (hE : s.allowedSet = []) (hch : chunk ≠ []) :
    (s.processChunk chunk).2.1
        = (pcore (s.carry ++ filterChars s.stripNonEnglish chunk)).1 ∧
      (s.processChunk chunk).1.carry
        = (pcore (s.carry ++ filterChars s.stripNonEnglish chunk)).2 := by
  have hb : bareScan s (s.carry ++ filterChars s.stripNonEnglish chunk)
      = (none, s.carry ++ filterChars s.stripNonEnglish chunk) := by
    rw [bareScan, if_neg]
    intro hcond
    exact hcond.2.1 hE
  constructor <;>
    simp only [StreamTextParser.processChunk, if_neg hch, hb, hE, pcore]

theorem filterChars_nil (st : Bool) : filterChars st [] = [] := by
  cases st <;> rfl

theorem filterChars_append (st : Bool) (a b : List Char) :
    filterChars st (a ++ b) = filterChars st a ++ filterChars st b := by
  cases st
  · rfl
  · simp [filterChars]

theorem filterChars_flatten (st : Bool) (fs : List (List Char)) :
    (fs.map (filterChars st)).flatten = filterChars st fs.flatten := by
  induction fs with
  | nil => cases st <;> rfl
  | cons f fs ih =>
    simp only [List.map_cons, List.flatten_cons, ih, filterChars_append]

theorem noDoubleOpenGo_filter : ∀ (l : List Char) (b : Bool),
    noDoubleOpenGo b (l.filter isProseChar) = noDoubleOpenGo b l := by
  intro l
  induction l with
  | nil => intro b; rfl
  | cons x xs ih =>
    intro b
    by_cases hx : isProseChar x = true
    · rw [List.filter_cons, if_pos hx, noDoubleOpenGo, noDoubleOpenGo]
      by_cases h1 : x = '['
      · rw [if_pos h1, if_pos h1]
        exact if_congr Iff.rfl rfl (ih true)
      · rw [if_neg h1, if_neg h1]
        by_cases h2 : x = ']'
        · rw [if_pos h2, if_pos h2]
          exact ih false
        · rw [if_neg h2, if_neg h2]
          exact ih b
    · have h1 : ¬x = '[' := fun he => hx (by rw [he]; decide)
      have h2 : ¬x = ']' := fun he => hx (by rw [he]; decide)
      have hr : noDoubleOpenGo b (x :: xs) = noDoubleOpenGo b xs := by
        rw [noDoubleOpenGo, if_neg h1, if_neg h2]
      rw [List.filter_cons, if_neg hx, hr]
      exact ih b

theorem noDoubleOpen_filterChars (st : Bool) (l : List Char) :
    noDoubleOpen (filterChars st l) = noDoubleOpen l := by
  cases st
  · rfl
  · exact noDoubleOpenGo_filter l false

theorem runChunks_cons_clean (s : StreamTextParser) (f : List Char) (fs : List (List Char)) :
    cleanConcat (runChunks s (f :: fs)).2 =
      (s.processChunk f).2.1 ++ cleanConcat (runChunks (s.processChunk f).1 fs).2 := by
  simp [runChunks, cleanConcat]

theorem runChunks_cons_state (s : StreamTextParser) (f : List Char) (fs : List (List Char)) :
    (runChunks s (f :: fs)).1 = (runChunks (s.processChunk f).1 fs).1 := by
  simp [runChunks]

theorem runChunks_permissive (st : Bool) (fs : List (List Char)) :
    ∀ (p : List Char) (s : StreamTextParser),
      s.allowedSet = [] → s.stripNonEnglish = st → s.carry = (pcore p).2 →
      noDoubleOpen (p ++ (fs.map (filterChars st)).flatten) = true →
      (pcore p).1 ++ (cleanConcat (runChunks s fs).2 ++ ((runChunks s fs).1.finish).1.1)
        = (pcore (p ++ (fs.map (filterChars st)).flatten)).1 ++
          (pcore (p ++ (fs.map (filterChars st)).flatten)).2 := by
  induction fs with
  | nil =>
    intro p s _ _ hca _
    show (pcore p).1 ++ (cleanConcat [] ++ s.carry) = _
    rw [hca]
    simp [cleanConcat]
  | cons f fs ih =>
    intro p s hE hst hca hnd
    by_cases hf : f = []
    · subst hf
      have hfl : ((([] : List Char) :: fs).map (filterChars st)).flatten
          = (fs.map (filterChars st)).flatten := by
        simp [filterChars_nil]
      rw [hfl] at hnd ⊢
      have hstep : s.processChunk [] = (s, [], []) := by
        simp [StreamTextParser.processChunk]
      rw [runChunks_cons_clean, runChunks_cons_state, hstep]
      simp only [List.nil_append]
      exact ih p s hE hst hca hnd
    · have hperm := processChunk_permissive s f hE hf
      rw [hst] at hperm
      have hp_pre : noDoubleOpen p = true :=
        go_prefix p (((f :: fs).map (filterChars st)).flatten) false hnd
      have happ := pcore_append p.length p (filterChars st f) (Nat.le_refl _) hp_pre
      have hconf := processChunk_preserves_config s f
      have hca' : (s.processChunk f).1.carry = (pcore (p ++ filterChars st f)).2 := by
        rw [hperm.2, hca, happ]
      have hmcons : ((f :: fs).map (filterChars st)).flatten
          = filterChars st f ++ (fs.map (filterChars st)).flatten := by
        simp
      have hnd' : noDoubleOpen ((p ++ filterChars st f) ++ (fs.map (filterChars st)).flatten)
          = true := by
        have he : (p ++ filterChars st f) ++ (fs.map (filterChars st)).flatten
            = p ++ ((f :: fs).map (filterChars st)).flatten := by
          rw [hmcons]
          simp
        rw [he]
        exact hnd
      have hih := ih (p ++ filterChars st f) (s.processChunk f).1 (by rw [hconf.1, hE])
        (by rw [hconf.2, hst]) hca' hnd'
      rw [runChunks_cons_clean, runChunks_cons_state, hperm.1, hca]
      have hfl2 : p ++ ((f :: fs).map (filterChars st)).flatten
          = (p ++ filterChars st f) ++ (fs.map (filterChars st)).flatten := by
        rw [hmcons]
        simp
      rw [hfl2, ← hih, happ]
      simp [List.append_assoc]

/-- C1 (amended): fragmentation invariance holds in permissive mode
(`allowed_tags` empty — so the bare-tag detector is off and no span is
dropped as disallowed), with either setting of the character filter, for
every logical input in which no second `[` occurs while an earlier `[`
is still unclosed: splitting such an input into any sequence of
fragments yields the same concatenated clean text plus `finish` residual
as processing it as one single fragment.  (The filter removes characters
one by one and keeps both brackets, so it distributes over fragment
boundaries and preserves the no-double-open condition.  The claim fails
in general — see the counterexample — both because text preceding a
disallowed tag is dropped only when its `]` arrives in the same call,
and because the carry keeps only the last unmatched `[`.) -/
theorem c1_frag_invariance_permissive (strip : Bool) (fs : List (List Char))
    (h : noDoubleOpen fs.flatten = true) :
    cleanConcat (runChunks (StreamTextParser.init [] strip) fs).2 ++
        ((runChunks (StreamTextParser.init [] strip) fs).1.finish).1.1
      = cleanConcat (runChunks (StreamTextParser.init [] strip) [fs.flatten]).2 ++
        ((runChunks (StreamTextParser.init [] strip) [fs.flatten]).1.finish).1.1 := by
  have hfilt : noDoubleOpen (filterChars strip fs.flatten) = true := by
    rw [noDoubleOpen_filterChars]
    exact h
  have hbase : (StreamTextParser.init [] strip).carry = (pcore []).2 := rfl
  have h1 := runChunks_permissive strip fs [] (StreamTextParser.init [] strip) rfl rfl hbase
    (by rw [List.nil_append, filterChars_flatten]; exact hfilt)
  have h2 := runChunks_permissive strip [fs.flatten] [] (StreamTextParser.init [] strip)
    rfl rfl hbase
    (by
      rw [List.nil_append]
      simp only [List.map_cons, List.map_nil, List.flatten_cons, List.flatten_nil,
        List.append_nil]
      exact hfilt)
  have hpe : pcore ([] : List Char) = ([], []) := rfl
  rw [hpe, List.nil_append, List.nil_append] at h1 h2
  rw [filterChars_flatten] at h1
  simp only [List.map_cons, List.map_nil, List.flatten_cons, List.flatten_nil,
    List.append_nil] at h2
  exact h1.trans h2.symm

theorem c1_witness :
    noDoubleOpen (List.flatten [['a'], ['[', 'b', ']'], ['c']]) = true ∧
      (cleanConcat (runChunks (StreamTextParser.init [] true) [['a'], ['[', 'b', ']'], ['c']]).2 ++
          ((runChunks (StreamTextParser.init [] true) [['a'], ['[', 'b', ']'], ['c']]).1.finish).1.1
        = cleanConcat (runChunks (StreamTextParser.init [] true)
            [List.flatten [['a'], ['[', 'b', ']'], ['c']]]).2 ++
          ((runChunks (StreamTextParser.init [] true)
            [List.flatten [['a'], ['[', 'b', ']'], ['c']]]).1.finish).1.1) :=
  ⟨by decide, c1_frag_invariance_permissive true [['a'], ['[', 'b', ']'], ['c']] (by decide)⟩

/-- C1 counterexample: with `allowed_tags = {"T"}` and identical
configuration in both runs, the logical string `"x[B]"` split as
`["x", "[B]"]` produces total clean output `"x"`, while processed as the
single fragment `"x[B]"` it produces `""` — the `x` preceding the
disallowed tag is dropped only when the closing bracket arrives in the
same call.  Fragmentation invariance fails. -/
theorem c1_counterexample :
    cleanConcat (runChunks (StreamTextParser.init [['T']] true) [['x'], ['[', 'B', ']']]).2 ++
        ((runChunks (StreamTextParser.init [['T']] true) [['x'], ['[', 'B', ']']]).1.finish).1.1
      = ['x'] ∧
      cleanConcat (runChunks (StreamTextParser.init [['T']] true) [['x', '[', 'B', ']']]).2 ++
        ((runChunks (StreamTextParser.init [['T']] true) [['x', '[', 'B', ']']]).1.finish).1.1
      = [] ∧
      (['x'] : List Char) ≠ [] := by
  refine ⟨by decide, by decide, by decide⟩

/-! ### Claim C9: subsumption of the minimal emotion variant -/

theorem scan_eq_escan (E : List (List Char)) :
    ∀ (n : Nat) (rest : List Char), rest.length ≤ n → allSpansAllowed E rest = true →
      scanLoop E rest = escanLoop E rest := by
  intro n
  induction n with
  | zero =>
    intro rest h _
    have hr : rest = [] := List.length_eq_zero.1 (Nat.le_zero.1 h)
    subst hr
    rfl
  | succ n ih =>
    intro rest h hsa
    cases h1 : splitFirst '[' rest with
    | none => rw [scanLoop_no_open E h1, escanLoop_no_open E h1]
    | some po =>
      obtain ⟨pre, ao⟩ := po
      cases h2 : splitFirst ']' ao with
      | none => rw [scanLoop_no_close E h1 h2, escanLoop_no_close E h1 h2]
      | some ia =>
        obtain ⟨inn, ac⟩ := ia
        have l1 := splitFirst_lengths h1
        have l2 := splitFirst_lengths h2
        have hle : ac.length ≤ n := by omega
        rw [allSpansAllowed_span E h1 h2] at hsa
        simp only [Bool.and_eq_true, decide_eq_true_eq] at hsa
        rw [scanLoop_span E h1 h2, escanLoop_span E h1 h2,
          if_pos (Or.inr hsa.1), if_pos hsa.1, ih ac hle hsa.2]

theorem bareScan_of_noBareHit (s : StreamTextParser) (combined : List Char)
    (h : noBareHit s.allowedSet combined = true) :
    bareScan s combined = (none, combined) := by
  rw [noBareHit] at h
  simp only [Bool.or_eq_true, decide_eq_true_eq, Option.isNone_iff_eq_none] at h
  rw [bareScan]
  by_cases hcond : s.hasOutputNonWs = false ∧ s.allowedSet ≠ [] ∧ combined ≠ []
  · rw [if_pos hcond]
    by_cases hj : (combined.takeWhile pyIsSpace).length < combined.length
    · rw [if_pos hj]
      rcases h with h | h
      · omega
      · rw [h]
    · rw [if_neg hj]
  · rw [if_neg hcond]

theorem step_pair (gs : StreamTextParser) (es : EmotionTagParser) (f : List Char)
    (hE : gs.allowedSet = es.allowedSet) (hst : gs.stripNonEnglish = false)
    (hca : gs.carry = es.carry)
    (hrel : es.lastEmotion = (match gs.lastTag with
      | some t => t
      | none => es.defaultEmotion))
    (hok : gstepOk gs f = true) :
    (gs.processChunk f).2 = (es.processChunk f).2 ∧
      (gs.processChunk f).1.carry = (es.processChunk f).1.carry ∧
      ((es.processChunk f).1.lastEmotion = (match (gs.processChunk f).1.lastTag with
        | some t => t
        | none => (es.processChunk f).1.defaultEmotion)) ∧
      (es.processChunk f).1.defaultEmotion = es.defaultEmotion ∧
      (es.processChunk f).1.allowedSet = es.allowedSet := by
  by_cases hf : f = []
  · subst hf
    simp [StreamTextParser.processChunk, EmotionTagParser.processChunk, hca, hrel]
  · have hfil : filterChars gs.stripNonEnglish f = f := by
      rw [hst]
      simp [filterChars]
    rw [gstepOk, hfil] at hok
    simp only [Bool.and_eq_true] at hok
    obtain ⟨hnb, hsa⟩ := hok
    have hbs := bareScan_of_noBareHit gs _ hnb
    have hsceq := scan_eq_escan gs.allowedSet (gs.carry ++ f).length (gs.carry ++ f)
      (Nat.le_refl _) hsa
    rw [hE, hca] at hsceq
    rw [hca] at hbs
    refine ⟨?_, ?_, ?_, ?_, ?_⟩
    · simp only [StreamTextParser.processChunk, EmotionTagParser.processChunk, if_neg hf, hfil,
        hbs, hE, hca, hsceq, List.nil_append]
    · simp only [StreamTextParser.processChunk, EmotionTagParser.processChunk, if_neg hf, hfil,
        hbs, hE, hca, hsceq]
    · simp only [StreamTextParser.processChunk, EmotionTagParser.processChunk, if_neg hf, hfil,
        hbs, hE, hca, hsceq, List.nil_append]
      cases hgl : (escanLoop es.allowedSet (es.carry ++ f)).2.1.getLast? with
      | some t => simp [hgl]
      | none => simp [hgl, hrel]
    · simp only [EmotionTagParser.processChunk, if_neg hf]
    · simp only [EmotionTagParser.processChunk, if_neg hf]

theorem erunChunks_cons_state (s : EmotionTagParser) (f : List Char) (fs : List (List Char)) :
    (erunChunks s (f :: fs)).1 = (erunChunks (s.processChunk f).1 fs).1 := by
  simp [erunChunks]

theorem goodRun_pair (fs : List (List Char)) :
    ∀ (gs : StreamTextParser) (es : EmotionTagParser),
      gs.allowedSet = es.allowedSet → gs.stripNonEnglish = false → gs.carry = es.carry →
      es.lastEmotion = (match gs.lastTag with
        | some t => t
        | none => es.defaultEmotion) →
      goodRun gs fs = true →
      (runChunks gs fs).2 = (erunChunks es fs).2 ∧
        (runChunks gs fs).1.carry = (erunChunks es fs).1.carry ∧
        ((erunChunks es fs).1.lastEmotion =
          (match (runChunks gs fs).1.lastTag with
           | some t => t
           | none => es.defaultEmotion)) := by
  induction fs with
  | nil =>
    intro gs es _ _ hca hrel _
    exact ⟨rfl, hca, hrel⟩
  | cons f fs ih =>
    intro gs es hE hst hca hrel hgr
    rw [goodRun] at hgr
    simp only [Bool.and_eq_true] at hgr
    obtain ⟨hok, hgr2⟩ := hgr
    obtain ⟨hout, hca2, hrel2, hdef, hE2⟩ := step_pair gs es f hE hst hca hrel hok
    have hEn : (gs.processChunk f).1.allowedSet = (es.processChunk f).1.allowedSet := by
      rw [(processChunk_preserves_config gs f).1, hE, hE2]
    have hstn : (gs.processChunk f).1.stripNonEnglish = false := by
      rw [(processChunk_preserves_config gs f).2, hst]
    obtain ⟨hr1, hr2, hr3⟩ := ih (gs.processChunk f).1 (es.processChunk f).1 hEn hstn hca2 hrel2 hgr2
    rw [hdef] at hr3
    refine ⟨?_, ?_, ?_⟩
    · simp only [runChunks, erunChunks]
      rw [hr1, congrArg Prod.fst hout, congrArg Prod.snd hout]
    · rw [runChunks_cons_state, erunChunks_cons_state]
      exact hr2
    · rw [runChunks_cons_state, erunChunks_cons_state]
      exact hr3

/-- C9 (amended): the generic engine with `allowed_tags = E` (non-empty)
and filtering disabled coincides with the minimal emotion variant
configured with `allowed_emotions = E` and `default_emotion = d` on
every run in which, at each call, the working buffer triggers no bare
leading-tag match and every complete bracketed span has an allowed inner
text: the per-call `(clean_text, tags_found)` results coincide, the
`finish` residuals coincide, and the emotion variant's final tag is the
generic engine's final tag when one was recognized and `d` otherwise.
(Unconditionally the claim fails — see the counterexample — because
the generic engine drops disallowed spans the minimal variant keeps as
text, strips bare leading tags the minimal variant does not know about,
and reports `None` instead of a default from `finish`.) -/
theorem c9_conditional_subsumption (E : List (List Char)) (d : List Char)
    (fs : List (List Char)) (_hE : E ≠ [])
    (hgr : goodRun (StreamTextParser.init E false) fs = true) :
    (runChunks (StreamTextParser.init E false) fs).2
        = (erunChunks (EmotionTagParser.init E d) fs).2 ∧
      ((runChunks (StreamTextParser.init E false) fs).1.finish).1.1
        = ((erunChunks (EmotionTagParser.init E d) fs).1.finish).1.1 ∧
      ((erunChunks (EmotionTagParser.init E d) fs).1.finish).1.2
        = (match ((runChunks (StreamTextParser.init E false) fs).1.finish).1.2 with
           | some t => t
           | none => d) := by
  obtain ⟨h1, h2, h3⟩ := goodRun_pair fs (StreamTextParser.init E false)
    (EmotionTagParser.init E d) rfl rfl rfl rfl hgr
  exact ⟨h1, h2, h3⟩

theorem c9_witness :
    (([['H', 'a', 'p', 'p', 'y']] : List (List Char)) ≠ [] ∧
      goodRun (StreamTextParser.init [['H', 'a', 'p', 'p', 'y']] false)
        [['h', 'i', ' '], ['[', 'H', 'a', 'p', 'p', 'y', ']', ' ', 'x']] = true) ∧
      ((runChunks (StreamTextParser.init [['H', 'a', 'p', 'p', 'y']] false)
          [['h', 'i', ' '], ['[', 'H', 'a', 'p', 'p', 'y', ']', ' ', 'x']]).2
        = (erunChunks (EmotionTagParser.init [['H', 'a', 'p', 'p', 'y']] ['n'])
          [['h', 'i', ' '], ['[', 'H', 'a', 'p', 'p', 'y', ']', ' ', 'x']]).2 ∧
      ((runChunks (StreamTextParser.init [['H', 'a', 'p', 'p', 'y']] false)
          [['h', 'i', ' '], ['[', 'H', 'a', 'p', 'p', 'y', ']', ' ', 'x']]).1.finish).1.1
        = ((erunChunks (EmotionTagParser.init [['H', 'a', 'p', 'p', 'y']] ['n'])
          [['h', 'i', ' '], ['[', 'H', 'a', 'p', 'p', 'y', ']', ' ', 'x']]).1.finish).1.1 ∧
      ((erunChunks (EmotionTagParser.init [['H', 'a', 'p', 'p', 'y']] ['n'])
          [['h', 'i', ' '], ['[', 'H', 'a', 'p', 'p', 'y', ']', ' ', 'x']]).1.finish).1.2
        = (match ((runChunks (StreamTextParser.init [['H', 'a', 'p', 'p', 'y']] false)
            [['h', 'i', ' '], ['[', 'H', 'a', 'p', 'p', 'y', ']', ' ', 'x']]).1.finish).1.2 with
           | some t => t
           | none => ['n'])) :=
  ⟨⟨by decide, by decide⟩,
    c9_conditional_subsumption [['H', 'a', 'p', 'p', 'y']] ['n']
      [['h', 'i', ' '], ['[', 'H', 'a', 'p', 'p', 'y', ']', ' ', 'x']] (by decide) (by decide)⟩

/-- C9 counterexample: with identical tag set `{"Happy"}`, filtering
disabled and default `"n"`, the single fragment `"[x] hi"` yields clean
text `" hi"` from the generic engine (disallowed span dropped) but
`"[x] hi"` from the minimal emotion variant (disallowed span kept as
text): the two variants do not produce the same per-call results. -/
theorem c9_counterexample :
    ((StreamTextParser.init [['H', 'a', 'p', 'p', 'y']] false).processChunk
        ['[', 'x', ']', ' ', 'h', 'i']).2.1 = [' ', 'h', 'i'] ∧
      ((EmotionTagParser.init [['H', 'a', 'p', 'p', 'y']] ['n']).processChunk
        ['[', 'x', ']', ' ', 'h', 'i']).2.1 = ['[', 'x', ']', ' ', 'h', 'i'] ∧
      ([' ', 'h', 'i'] : List Char) ≠ ['[', 'x', ']', ' ', 'h', 'i'] := by
  refine ⟨by decide, by decide, by decide⟩
